import Mathlib

/-! analyze-exports: exported declarations without a documentation comment

A shallow embedding of `main.go`.  The program walks a directory, parses every
`.go` file with `go/parser`, records every exported top-level name
(`analyzeFile`) and prints the records that have no comment (`main`).

The Go standard library is not part of the program.  Its data (syntax tree,
comment map, file set) is modelled by the fields the program reads, and the
library functions whose tables or algorithms are not in the repository
(`unicode.IsUpper`, `ast.NewCommentMap`, `parser.ParseFile`, `filepath.Walk`)
are parameters.
-/

namespace AnalyzeExports

/-! ## go/token, go/ast: the data the program reads -/

/-- A `token.Pos`: an offset into the file set, 0 being `token.NoPos`. -/
abbrev Pos := Nat

/-- The identity of an `ast.Node` (Go compares nodes by pointer). -/
abbrev NodeId := Nat

/-- A `token.FileSet`, seen through the one thing the program asks of it:
`Line p` is `fset.Position(p).Line`. -/
structure FileSet where
  Line : Pos → Nat

/-- The `token.Token` values a `GenDecl.Tok` takes. -/
inductive Token where
  | IMPORT
  | CONST
  | TYPE
  | VAR
  deriving DecidableEq

/-- An `*ast.CommentGroup`: its own node, the `*ast.Comment` nodes below it and
the value of its method `Text()` (the comment text without the markers). -/
structure CommentGroup where
  id : NodeId
  Comments : List NodeId
  Text : String
  deriving DecidableEq

/-- An `*ast.Ident`. -/
structure Ident where
  id : NodeId
  NamePos : Pos
  Name : String
  deriving DecidableEq

/-- The dynamic type of an `ast.Expr` value: every expression node of go/ast. -/
inductive ExprKind where
  | BadExpr
  | Ident
  | Ellipsis
  | BasicLit
  | FuncLit
  | CompositeLit
  | ParenExpr
  | SelectorExpr
  | IndexExpr
  | IndexListExpr
  | SliceExpr
  | TypeAssertExpr
  | CallExpr
  | StarExpr
  | UnaryExpr
  | BinaryExpr
  | KeyValueExpr
  | ArrayType
  | StructType
  | FuncType
  | InterfaceType
  | MapType
  | ChanType
  deriving DecidableEq

/-- An `ast.Expr`: its dynamic type and the nodes of its subtree (itself
first), in the order `ast.Inspect` visits them.  The program never looks
inside an expression. -/
structure Expr where
  kind : ExprKind
  nodes : List NodeId
  deriving DecidableEq

/-- An `*ast.Field` of a field list, as the nodes of its subtree. -/
structure Field where
  nodes : List NodeId
  deriving DecidableEq

/-- An `*ast.FieldList`; `List_` is its field `List`. -/
structure FieldList where
  id : NodeId
  List_ : List Field
  deriving DecidableEq

/-- An `*ast.ValueSpec`: one line of a `const` or `var` declaration. -/
structure ValueSpec where
  id : NodeId
  Doc : Option CommentGroup
  Names : List Ident
  Type_ : Option Expr
  Values : List Expr
  Comment : Option CommentGroup
  deriving DecidableEq

/-- An `*ast.TypeSpec`. -/
structure TypeSpec where
  id : NodeId
  Doc : Option CommentGroup
  Name : Ident
  TypeParams : Option FieldList
  Type_ : Expr
  Comment : Option CommentGroup
  deriving DecidableEq

/-- An `*ast.ImportSpec`; `Path` is the node of the path literal. -/
structure ImportSpec where
  id : NodeId
  Doc : Option CommentGroup
  Name : Option Ident
  Path : NodeId
  Comment : Option CommentGroup
  deriving DecidableEq

/-- An `ast.Spec`. -/
inductive Spec where
  | ImportSpec (s : ImportSpec)
  | ValueSpec (s : ValueSpec)
  | TypeSpec (s : TypeSpec)
  deriving DecidableEq

/-- An `*ast.GenDecl`: an `import`, `const`, `type` or `var` declaration,
grouped or not. -/
structure GenDecl where
  id : NodeId
  Doc : Option CommentGroup
  Tok : Token
  Specs : List Spec
  deriving DecidableEq

/-- An `*ast.FuncDecl`.  `Type` is the `*ast.FuncType` and `Body` the
`*ast.BlockStmt`, each as the nodes of its subtree. -/
structure FuncDecl where
  id : NodeId
  Doc : Option CommentGroup
  Recv : Option FieldList
  Name : Ident
  Type_ : List NodeId
  Body : Option (List NodeId)
  deriving DecidableEq

/-- An `ast.Decl`. -/
inductive Decl where
  | BadDecl (id : NodeId)
  | GenDecl (d : GenDecl)
  | FuncDecl (d : FuncDecl)
  deriving DecidableEq

/-- An `*ast.File`, with the two fields the program reads. -/
structure File where
  Decls : List Decl
  Comments : List CommentGroup
  deriving DecidableEq

/-! ## The nodes of a subtree, in the order of `ast.Inspect` -/

/-- Nodes below a comment group. -/
def CommentGroup.nodes (g : CommentGroup) : List NodeId :=
  g.id :: g.Comments

/-- Nodes of an optional comment group (`Doc`, `Comment`). -/
def docNodes : Option CommentGroup → List NodeId
  | none => []
  | some g => g.nodes

/-- Nodes of a field list. -/
def FieldList.nodes (l : FieldList) : List NodeId :=
  l.id :: l.List_.flatMap Field.nodes

/-- Nodes of an optional field list. -/
def fieldListNodes : Option FieldList → List NodeId
  | none => []
  | some l => l.nodes

/-- Nodes of an optional expression. -/
def exprNodes : Option Expr → List NodeId
  | none => []
  | some e => e.nodes

/-- Nodes of a value spec: Doc, Names, Type, Values, Comment. -/
def ValueSpec.nodes (s : ValueSpec) : List NodeId :=
  s.id :: (docNodes s.Doc ++ s.Names.map Ident.id ++ exprNodes s.Type_
    ++ s.Values.flatMap Expr.nodes ++ docNodes s.Comment)

/-- Nodes of a type spec: Doc, Name, TypeParams, Type, Comment. -/
def TypeSpec.nodes (s : TypeSpec) : List NodeId :=
  s.id :: (docNodes s.Doc ++ [s.Name.id] ++ fieldListNodes s.TypeParams
    ++ s.Type_.nodes ++ docNodes s.Comment)

/-- Nodes of an import spec: Doc, Name, Path, Comment. -/
def ImportSpec.nodes (s : ImportSpec) : List NodeId :=
  s.id :: (docNodes s.Doc ++ (s.Name.map Ident.id).toList ++ [s.Path]
    ++ docNodes s.Comment)

/-- Nodes of a spec. -/
def Spec.nodes : Spec → List NodeId
  | .ImportSpec s => s.nodes
  | .ValueSpec s => s.nodes
  | .TypeSpec s => s.nodes

/-- Nodes of a general declaration: Doc, then the specs. -/
def GenDecl.nodes (d : GenDecl) : List NodeId :=
  d.id :: (docNodes d.Doc ++ d.Specs.flatMap Spec.nodes)

/-- Nodes of a function declaration: Doc, Recv, Name, Type, Body. -/
def FuncDecl.nodes (d : FuncDecl) : List NodeId :=
  d.id :: (docNodes d.Doc ++ fieldListNodes d.Recv ++ [d.Name.id] ++ d.Type_
    ++ d.Body.getD [])

/-! ## go/ast comment maps -/

/-- An `ast.CommentMap`, a Go `map[Node][]*CommentGroup`, as its lookup
`cmap[n]` (no entry reads as the empty list). -/
abbrev CommentMap := NodeId → List CommentGroup

/-- The method `CommentMap.Filter(node)`: the entries of `cmap` whose node is
in the subtree of `node` and whose list is not empty; `nodes` is that
subtree. -/
def Filter (cmap : CommentMap) (nodes : List NodeId) : List (NodeId × List CommentGroup) :=
  nodes.dedup.filterMap fun n =>
    if (cmap n).length > 0 then some (n, cmap n) else none

/-- The method `CommentMap.Comments()`: all comment groups of the map.  (The
library also sorts them by position; the program takes the length only.) -/
def Comments (m : List (NodeId × List CommentGroup)) : List CommentGroup :=
  m.flatMap Prod.snd

/-! ## The library functions taken as parameters -/

/-- Library functions whose tables and algorithms are outside the repository:
`unicode.IsUpper` and `ast.NewCommentMap`. -/
structure GoLib where
  IsUpper : Char → Bool
  NewCommentMap : FileSet → File → List CommentGroup → CommentMap

/-- The rune `utf8.DecodeRuneInString` returns: the first character, or
`utf8.RuneError` (U+FFFD) for the empty string. -/
def firstRune (name : String) : Char :=
  match name.data with
  | [] => Char.ofNat 0xFFFD
  | ch :: _ => ch

/-- The function `token.IsExported`, which `Ident.IsExported` calls on the
name. -/
def IsExported (lib : GoLib) (name : String) : Bool :=
  lib.IsUpper (firstRune name)

/-! ## main.go -/

/-- The struct `ExportInfo`; `Type_` is its field `Type`. -/
structure ExportInfo where
  File : String
  Line : Nat
  Name : String
  Type_ : String
  HasComment : Bool
  deriving DecidableEq

/-- The closure `hasComment` of `analyzeFile`; the node is given by its
subtree. -/
def hasComment (commentMap : CommentMap) (node : List NodeId) : Bool :=
  let comments := Comments (Filter commentMap node)
  decide (comments.length > 0)

/-- The test `Doc != nil && Doc.Text() != ""`. -/
def docNonEmpty : Option CommentGroup → Bool
  | none => false
  | some doc => doc.Text != ""

/-- The loop over `s.Names` of a value spec (main.go, lines 88-103). -/
def analyzeNames (lib : GoLib) (commentMap : CommentMap) (filename : String) (fset : FileSet)
    (d : GenDecl) (s : ValueSpec) (exports : List ExportInfo) : List ExportInfo :=
  s.Names.foldl (fun exports name =>
    if IsExported lib name.Name then
      let exportType := if d.Tok = Token.CONST then "constant" else "variable"
      exports ++ [{ File := filename
                    Line := fset.Line name.NamePos
                    Name := name.Name
                    Type_ := exportType
                    HasComment := hasComment commentMap d.nodes || docNonEmpty s.Doc }]
    else exports) exports

/-- The type switch on `s.Type` (main.go, lines 107-115). -/
def typeStr (e : Expr) : String :=
  match e.kind with
  | .StructType => "struct"
  | .InterfaceType => "interface"
  | .FuncType => "func type"
  | _ => "type"

/-- The body of the loop over `d.Specs` (main.go, lines 85-125). -/
def analyzeSpec (lib : GoLib) (commentMap : CommentMap) (filename : String) (fset : FileSet)
    (d : GenDecl) (exports : List ExportInfo) (spec : Spec) : List ExportInfo :=
  match spec with
  | .ValueSpec s => analyzeNames lib commentMap filename fset d s exports
  | .TypeSpec s =>
    if IsExported lib s.Name.Name then
      exports ++ [{ File := filename
                    Line := fset.Line s.Name.NamePos
                    Name := s.Name.Name
                    Type_ := typeStr s.Type_
                    HasComment := hasComment commentMap d.nodes || docNonEmpty s.Doc }]
    else exports
  | .ImportSpec _ => exports

/-- The body of the loop over `node.Decls` (main.go, lines 81-143). -/
def analyzeDecl (lib : GoLib) (commentMap : CommentMap) (filename : String) (fset : FileSet)
    (exports : List ExportInfo) (decl : Decl) : List ExportInfo :=
  match decl with
  | .GenDecl d => d.Specs.foldl (analyzeSpec lib commentMap filename fset d) exports
  | .FuncDecl d =>
    if IsExported lib d.Name.Name then
      let exportType :=
        match d.Recv with
        | some recv => if recv.List_.length > 0 then "method" else "function"
        | none => "function"
      exports ++ [{ File := filename
                    Line := fset.Line d.Name.NamePos
                    Name := d.Name.Name
                    Type_ := exportType
                    HasComment := hasComment commentMap d.nodes || docNonEmpty d.Doc }]
    else exports
  | .BadDecl _ => exports

/-- The function `analyzeFile`. -/
def analyzeFile (lib : GoLib) (filename : String) (fset : FileSet) (node : File) :
    List ExportInfo :=
  let commentMap := lib.NewCommentMap fset node node.Comments
  node.Decls.foldl (analyzeDecl lib commentMap filename fset) []

/-- One call of the walk function by `filepath.Walk`: the path, `info.IsDir()`
and the error Walk passes (`none` for nil). -/
structure WalkEntry where
  path : String
  IsDir : Bool
  err : Option String
  deriving DecidableEq

/-- The function `strings.HasSuffix`: `s` is at least as long as `suffix`
and its tail of that length equals `suffix`. -/
def HasSuffix (s suffix : String) : Bool :=
  decide (s.data.length ≥ suffix.data.length) &&
    (s.data.drop (s.data.length - suffix.data.length) == suffix.data)

/-- The walk function of `main` (main.go, lines 25-33): the new value of
`files` and the error it returns. -/
def walkFn (files : List String) (e : WalkEntry) : List String × Option String :=
  match e.err with
  | some err => (files, some err)
  | none =>
    if !e.IsDir && HasSuffix e.path ".go" then (files ++ [e.path], none)
    else (files, none)

/-- The call `filepath.Walk(root, fn)`, where `entries` are the calls Walk
makes in order as long as the walk function returns nil: Walk stops at the
first error the walk function returns and returns it. -/
def Walk : List WalkEntry → List String → List String × Option String
  | [], files => (files, none)
  | e :: rest, files =>
    match walkFn files e with
    | (files, some err) => (files, some err)
    | (files, none) => Walk rest files

/-- The Go map `allExports`, a `map[string][]ExportInfo`, as its entries. -/
abbrev ExportMap := List (String × List ExportInfo)

/-- The assignment `allExports[file] = exports`. -/
def ExportMap.set : ExportMap → String → List ExportInfo → ExportMap
  | [], file, exports => [(file, exports)]
  | (k, v) :: rest, file, exports =>
    if k = file then (file, exports) :: rest
    else (k, v) :: ExportMap.set rest file exports

/-- What the run depends on outside the program: the entries under the root
directory as Walk presents them, the outcome of
`parser.ParseFile(fset, file, nil, parser.ParseComments)` on a fresh file set
(the error, or the file set and the tree), and the order in which `range`
iterates over a map, which Go leaves unspecified. -/
structure Env where
  entries : List WalkEntry
  ParseFile : String → Except String (FileSet × File)
  rangeOrder : ExportMap → ExportMap

/-- One call of `fmt.Printf` in `main`, with its arguments. -/
inductive Out where
  | walkError (err : String)
  | parseError (file : String) (err : String)
  | header (file : String)
  | record (ordinal : Nat) (Name : String) (Type_ : String) (Line : Nat)
  deriving DecidableEq

/-- The text a call of `fmt.Printf` writes: the format strings of main.go,
lines 36, 46, 58 and 61, with `%s` and `%v` the string and `%d` the decimal
numeral. -/
def Out.text : Out → String
  | .walkError err => "Error walking directory: " ++ err ++ "\n"
  | .parseError file err => "Error parsing " ++ file ++ ": " ++ err ++ "\n"
  | .header file => "\nФайл: " ++ file ++ "\n"
  | .record ordinal name type line =>
    toString ordinal ++ ". " ++ name ++ " (" ++ type ++ ") - строка " ++ toString line ++ "\n"

/-- Everything written to standard output by a sequence of calls. -/
def stdout (out : List Out) : String :=
  String.join (out.map Out.text)

/-- The loop `for i, exp := range exports` (main.go, lines 59-63), from
index `i` on. -/
def printExports : List ExportInfo → Nat → List Out → List Out
  | [], _, out => out
  | exp :: rest, i, out =>
    if !exp.HasComment then
      printExports rest (i + 1) (out ++ [Out.record (i + 1) exp.Name exp.Type_ exp.Line])
    else printExports rest (i + 1) out

/-- The body of the loop over `files` (main.go, lines 42-54). -/
def parseStep (lib : GoLib) (env : Env) (st : List Out × ExportMap) (file : String) :
    List Out × ExportMap :=
  match env.ParseFile file with
  | .error err => (st.1 ++ [Out.parseError file err], st.2)
  | .ok (fset, node) =>
    let exports := analyzeFile lib file fset node
    if exports.length > 0 then (st.1, st.2.set file exports) else (st.1, st.2)

/-- The body of the loop over `allExports` (main.go, lines 57-64). -/
def reportStep (out : List Out) (entry : String × List ExportInfo) : List Out :=
  printExports entry.2 0 (out ++ [Out.header entry.1])

/-- The function `main`: the calls of `fmt.Printf` it makes, in order. -/
def main (lib : GoLib) (env : Env) : List Out :=
  match Walk env.entries [] with
  | (_, some err) => [Out.walkError err]
  | (files, none) =>
    let st := files.foldl (parseStep lib env) ([], [])
    (env.rangeOrder st.2).foldl reportStep st.1

/-! ## The top-level names of a file

The flattening of the declarations that the specification describes: the
records of `analyzeFile` are compared with it. -/

/-- A top-level name together with the declaration (and spec) that binds it:
a name of a value spec, the name of a type spec, or the name of a function
declaration. -/
inductive TopName where
  | value (d : GenDecl) (s : ValueSpec) (name : Ident)
  | type (d : GenDecl) (s : TypeSpec)
  | func (d : FuncDecl)
  deriving DecidableEq

/-- The identifier of a top-level name. -/
def TopName.ident : TopName → Ident
  | .value _ _ name => name
  | .type _ s => s.Name
  | .func d => d.Name

/-- The subtree of the declaration that encloses a top-level name. -/
def TopName.declNodes : TopName → List NodeId
  | .value d _ _ => d.nodes
  | .type d _ => d.nodes
  | .func d => d.nodes

/-- The `Doc` field of the name's own node: `ValueSpec.Doc`, `TypeSpec.Doc`
or `FuncDecl.Doc`. -/
def TopName.Doc : TopName → Option CommentGroup
  | .value _ s _ => s.Doc
  | .type _ s => s.Doc
  | .func d => d.Doc

/-- The top-level names a spec of declaration `d` binds, in order; an import
spec binds none. -/
def Spec.topNames (d : GenDecl) : Spec → List TopName
  | .ValueSpec s => s.Names.map (TopName.value d s)
  | .TypeSpec s => [TopName.type d s]
  | .ImportSpec _ => []

/-- The top-level names of a declaration, in order. -/
def Decl.topNames : Decl → List TopName
  | .GenDecl d => d.Specs.flatMap (Spec.topNames d)
  | .FuncDecl d => [TopName.func d]
  | .BadDecl _ => []

/-- The top-level names of a file, in source order. -/
def File.topNames (node : File) : List TopName :=
  node.Decls.flatMap Decl.topNames

/-- The exported top-level names of a file, in source order. -/
def exportedTopNames (lib : GoLib) (node : File) : List TopName :=
  node.topNames.filter fun t => IsExported lib t.ident.Name

/-- The record the loop body appends for a top-level name (main.go, lines
95-101, 117-123 and 135-141). -/
def TopName.record (commentMap : CommentMap) (filename : String) (fset : FileSet) :
    TopName → ExportInfo
  | .value d s name =>
    { File := filename
      Line := fset.Line name.NamePos
      Name := name.Name
      Type_ := if d.Tok = Token.CONST then "constant" else "variable"
      HasComment := hasComment commentMap d.nodes || docNonEmpty s.Doc }
  | .type d s =>
    { File := filename
      Line := fset.Line s.Name.NamePos
      Name := s.Name.Name
      Type_ := typeStr s.Type_
      HasComment := hasComment commentMap d.nodes || docNonEmpty s.Doc }
  | .func d =>
    { File := filename
      Line := fset.Line d.Name.NamePos
      Name := d.Name.Name
      Type_ := match d.Recv with
        | some recv => if recv.List_.length > 0 then "method" else "function"
        | none => "function"
      HasComment := hasComment commentMap d.nodes || docNonEmpty d.Doc }

/-! ## The report, as the specification describes it -/

/-- The line printed for the record at index `p.1`. -/
def reportLine (p : Nat × ExportInfo) : Out :=
  Out.record (p.1 + 1) p.2.Name p.2.Type_ p.2.Line

/-- The calls of `fmt.Printf` for one entry of the map: the header, then the
lines of the records without a comment. -/
def reportBlock (entry : String × List ExportInfo) : List Out :=
  Out.header entry.1 :: printExports entry.2 0 []

/-- A file is stored: it parses and `analyzeFile` returns at least one
record for it. -/
def Stored (lib : GoLib) (env : Env) (file : String) : Prop :=
  ∃ fset node, env.ParseFile file = Except.ok (fset, node) ∧
    analyzeFile lib file fset node ≠ []

/-- An entry holds the records of its file. -/
def EntryOk (lib : GoLib) (env : Env) (e : String × List ExportInfo) : Prop :=
  ∃ fset node, env.ParseFile e.1 = Except.ok (fset, node) ∧
    e.2 = analyzeFile lib e.1 fset node

/-! ## The scenarios of the specification -/

/-- The value spec `A = 1` with the comment `// doc` on the line above it. -/
def constGroupSpecA : ValueSpec :=
  { id := 2
    Doc := some { id := 3, Comments := [4], Text := "doc\n" }
    Names := [{ id := 5, NamePos := 18, Name := "A" }]
    Type_ := none
    Values := [{ kind := ExprKind.BasicLit, nodes := [6] }]
    Comment := none }

/-- The value spec `B = 2`, without a comment of its own. -/
def constGroupSpecB : ValueSpec :=
  { id := 7
    Doc := none
    Names := [{ id := 8, NamePos := 25, Name := "B" }]
    Type_ := none
    Values := [{ kind := ExprKind.BasicLit, nodes := [9] }]
    Comment := none }

/-- The declaration `const ( // doc; A = 1; B = 2 )`, each of the four on a
line of its own: the comment is the `Doc` of the value spec of `A`, the value
spec of `B` has no `Doc`. -/
def constGroupDecl : GenDecl :=
  { id := 1
    Doc := none
    Tok := Token.CONST
    Specs := [Spec.ValueSpec constGroupSpecA, Spec.ValueSpec constGroupSpecB] }

/-- A file whose only declaration is `constGroupDecl`. -/
def constGroupFile : File :=
  { Decls := [Decl.GenDecl constGroupDecl]
    Comments := [{ id := 3, Comments := [4], Text := "doc\n" }] }

/-- The file `package p`, blank line, `func Bar() {}`: no comment. -/
def barFile : File :=
  { Decls := [Decl.FuncDecl
      { id := 1
        Doc := none
        Recv := none
        Name := { id := 2, NamePos := 17, Name := "Bar" }
        Type_ := [3, 4]
        Body := some [5] }]
    Comments := [] }

/-- The file `package p`, blank line, `// Foo does X.`, `func Foo() {}`. -/
def fooFile : File :=
  { Decls := [Decl.FuncDecl
      { id := 1
        Doc := some { id := 2, Comments := [3], Text := "Foo does X.\n" }
        Recv := none
        Name := { id := 4, NamePos := 32, Name := "Foo" }
        Type_ := [5, 6]
        Body := some [7] }]
    Comments := [{ id := 2, Comments := [3], Text := "Foo does X.\n" }] }

/-- A library instance for the examples: upper case as in ASCII, and a comment
map that holds the `Doc` comment of `fooFile` under its declaration. -/
def exampleLib : GoLib :=
  { IsUpper := Char.isUpper
    NewCommentMap := fun _ _ comments n => if n = 1 then comments else [] }

/-- A file set whose positions 1-10 are on line 1, 11 on line 2, 12-26 on
line 3 and the rest on line 4. -/
def exampleFset : FileSet :=
  { Line := fun p => if p ≤ 10 then 1 else if p ≤ 11 then 2 else if p ≤ 26 then 3 else 4 }

/-- A directory with the files `bar.go` and `foo.go`, a subdirectory `x.go`,
and a file `notes.txt`. -/
def exampleEnv : Env :=
  { entries :=
      [ { path := "root", IsDir := true, err := none },
        { path := "root/bar.go", IsDir := false, err := none },
        { path := "root/foo.go", IsDir := false, err := none },
        { path := "root/notes.txt", IsDir := false, err := none },
        { path := "root/x.go", IsDir := true, err := none } ]
    ParseFile := fun file =>
      if file = "root/bar.go" then Except.ok (exampleFset, barFile)
      else if file = "root/foo.go" then Except.ok (exampleFset, fooFile)
      else Except.error "expected 'package'"
    rangeOrder := id }

/-! ## Further notions used to state the properties -/

/-- The warning the loop over the files prints for a file: the call of line
46 when `parser.ParseFile` fails, nothing when the file parses. -/
def parseWarning (env : Env) (file : String) : Option Out :=
  match env.ParseFile file with
  | .error err => some (Out.parseError file err)
  | .ok _ => none

/-- Whether `parser.ParseFile` returns a nil error for a file. -/
def parses (env : Env) (file : String) : Bool :=
  match env.ParseFile file with
  | .error _ => false
  | .ok _ => true

/-- The method `token.Position.IsValid` on `fset.Position(p)`: the line is
positive. -/
def PositionIsValid (fset : FileSet) (p : Pos) : Bool :=
  decide (fset.Line p > 0)

/-- The ordinal a call of line 61 prints (0 for the other calls). -/
def Out.ordinal : Out → Nat
  | .record ordinal _ _ _ => ordinal
  | _ => 0

/-- The ordinals the reporter prints for a record sequence, counting the
records from `i`. -/
def ordinals (exports : List ExportInfo) (i : Nat) : List Nat :=
  (printExports exports i []).map Out.ordinal

/-- A comment group with the text of every comment erased. -/
def eraseText (g : CommentGroup) : CommentGroup :=
  { g with Text := "" }

/-! ## Further scenarios -/

/-- A directory with the parseable `bar.go` and the invalid `broken.go`. -/
def mixedEnv : Env :=
  { entries :=
      [ { path := "root", IsDir := true, err := none },
        { path := "root/bar.go", IsDir := false, err := none },
        { path := "root/broken.go", IsDir := false, err := none } ]
    ParseFile := fun file =>
      if file = "root/bar.go" then Except.ok (exampleFset, barFile)
      else Except.error "1:1: expected declaration"
    rangeOrder := id }

/-- A directory whose subdirectory `root/sub` cannot be read: Walk passes the
error after `root/bar.go` was visited. -/
def walkErrorEnv : Env :=
  { entries :=
      [ { path := "root", IsDir := true, err := none },
        { path := "root/bar.go", IsDir := false, err := none },
        { path := "root/sub", IsDir := true, err := none },
        { path := "root/sub", IsDir := true, err := some "open root/sub: permission denied" },
        { path := "root/zed.go", IsDir := false, err := none } ]
    ParseFile := fun _ => Except.ok (exampleFset, barFile)
    rangeOrder := id }

/-- The file set of `constGroupFile`: `const (` on line 1 (positions 1-8),
the comment on line 2 (9-16), `A = 1` on line 3 (17-23), `B = 2` on line 4
(24-30). -/
def constGroupFset : FileSet :=
  { Line := fun p => if p ≤ 8 then 1 else if p ≤ 16 then 2 else if p ≤ 23 then 3
      else if p ≤ 30 then 4 else 5 }

/-- The file `package p`, blank line, `func Baz() {`, `// inner`, `x()`, `}`:
no `Doc`, and one comment inside the body, above the statement `x()`
(node 6). -/
def innerCommentFile : File :=
  { Decls := [Decl.FuncDecl
      { id := 1
        Doc := none
        Recv := none
        Name := { id := 2, NamePos := 17, Name := "Baz" }
        Type_ := [3, 4]
        Body := some [5, 6, 7, 8] }]
    Comments := [{ id := 9, Comments := [10], Text := "inner\n" }] }

/-- A library instance whose comment map holds the comments of the file
under the statement of `innerCommentFile` (node 6). -/
def innerCommentLib : GoLib :=
  { IsUpper := Char.isUpper
    NewCommentMap := fun _ _ comments n => if n = 6 then comments else [] }

/-- The file `package p`, blank line, `//`, `func Qux() {}`: the only comment
is the empty `//`, whose text is the empty string. -/
def emptyCommentFile : File :=
  { Decls := [Decl.FuncDecl
      { id := 1
        Doc := some { id := 2, Comments := [3], Text := "" }
        Recv := none
        Name := { id := 4, NamePos := 20, Name := "Qux" }
        Type_ := [5, 6]
        Body := some [7] }]
    Comments := [{ id := 2, Comments := [3], Text := "" }] }

/-! ## Auxiliary facts about the loops -/

/-- A loop that appends to its accumulator builds the concatenation. -/
theorem foldl_append_eq {α β : Type} (f : List β → α → List β) (g : α → List β)
    (h : ∀ acc x, f acc x = acc ++ g x) (l : List α) (acc : List β) :
    l.foldl f acc = acc ++ l.flatMap g := by
  induction l generalizing acc with
  | nil => simp
  | cons x xs ih => simp [List.foldl_cons, h, ih, List.append_assoc]

/-- Filtering and mapping one element at a time is filtering and mapping the
list. -/
theorem flatMap_single_filter_map {α β γ : Type} (f : α → β) (p : β → Bool) (r : β → γ)
    (l : List α) :
    (l.flatMap fun x => (([f x] : List β).filter p).map r) = ((l.map f).filter p).map r := by
  induction l with
  | nil => rfl
  | cons x xs ih =>
    rw [List.flatMap_cons, ih, List.map_cons, List.filter_cons]
    cases hp : p (f x) <;> simp [List.filter_cons, hp]

/-- The loop over the names of a value spec appends the records of its
exported names. -/
theorem analyzeNames_eq (lib : GoLib) (cmap : CommentMap) (filename : String) (fset : FileSet)
    (d : GenDecl) (s : ValueSpec) (exports : List ExportInfo) :
    analyzeNames lib cmap filename fset d s exports
      = exports ++ ((Spec.topNames d (.ValueSpec s)).filter
          fun t => IsExported lib t.ident.Name).map (TopName.record cmap filename fset) := by
  unfold analyzeNames
  rw [foldl_append_eq _ (fun name => ((([TopName.value d s name] : List TopName).filter
      fun t => IsExported lib t.ident.Name).map (TopName.record cmap filename fset)))]
  · rw [Spec.topNames, flatMap_single_filter_map]
  · intro acc name
    by_cases hn : IsExported lib name.Name = true <;>
      simp [List.filter_cons, TopName.ident, TopName.record, hn]

/-- The body of the loop over the specs appends the records of the exported
names of the spec. -/
theorem analyzeSpec_eq (lib : GoLib) (cmap : CommentMap) (filename : String) (fset : FileSet)
    (d : GenDecl) (exports : List ExportInfo) (spec : Spec) :
    analyzeSpec lib cmap filename fset d exports spec
      = exports ++ ((Spec.topNames d spec).filter
          fun t => IsExported lib t.ident.Name).map (TopName.record cmap filename fset) := by
  cases spec with
  | ValueSpec s => exact analyzeNames_eq lib cmap filename fset d s exports
  | TypeSpec s =>
    by_cases hn : IsExported lib s.Name.Name = true <;>
      simp [analyzeSpec, Spec.topNames, List.filter_cons, TopName.ident, TopName.record, hn]
  | ImportSpec s => simp [analyzeSpec, Spec.topNames]

/-- The body of the loop over the declarations appends the records of the
exported names of the declaration. -/
theorem analyzeDecl_eq (lib : GoLib) (cmap : CommentMap) (filename : String) (fset : FileSet)
    (exports : List ExportInfo) (decl : Decl) :
    analyzeDecl lib cmap filename fset exports decl
      = exports ++ ((Decl.topNames decl).filter
          fun t => IsExported lib t.ident.Name).map (TopName.record cmap filename fset) := by
  cases decl with
  | GenDecl d =>
    simp only [analyzeDecl, Decl.topNames]
    rw [foldl_append_eq _ _ (fun acc x => analyzeSpec_eq lib cmap filename fset d acc x)]
    simp [List.filter_flatMap, List.map_flatMap]
  | FuncDecl d =>
    by_cases hn : IsExported lib d.Name.Name = true <;>
      simp [analyzeDecl, Decl.topNames, List.filter_cons, TopName.ident, TopName.record, hn]
  | BadDecl n => simp [analyzeDecl, Decl.topNames]

/-- The records of `analyzeFile` are the records of the exported top-level
names, in source order. -/
theorem analyzeFile_eq (lib : GoLib) (filename : String) (fset : FileSet) (node : File) :
    analyzeFile lib filename fset node
      = (exportedTopNames lib node).map
          (TopName.record (lib.NewCommentMap fset node node.Comments) filename fset) := by
  simp only [analyzeFile, exportedTopNames, File.topNames]
  rw [foldl_append_eq _ _ (fun acc x => analyzeDecl_eq lib _ filename fset acc x)]
  simp [List.filter_flatMap, List.map_flatMap]

/-- The group-level check finds a comment exactly when the comment map has a
comment for some node of the subtree. -/
theorem hasComment_iff (cmap : CommentMap) (nodes : List NodeId) :
    hasComment cmap nodes = true ↔ ∃ n ∈ nodes, cmap n ≠ [] := by
  simp only [hasComment, Comments, Filter, decide_eq_true_eq, gt_iff_lt, List.length_pos,
    ne_eq, List.flatMap_eq_nil_iff, List.mem_filterMap, List.mem_dedup, not_forall]
  constructor
  · rintro ⟨⟨k, v⟩, ⟨n, hn, hk⟩, _⟩
    refine ⟨n, hn, ?_⟩
    intro h0
    simp [h0] at hk
  · rintro ⟨n, hn, hc⟩
    exact ⟨(n, cmap n), ⟨n, hn, by simp [List.length_pos, hc]⟩, hc⟩

/-- A property that relates every exported top-level name to its record
relates the exported names of a file to the records of `analyzeFile`, one to
one and in order. -/
theorem forall₂_analyzeFile (lib : GoLib) (filename : String) (fset : FileSet) (node : File)
    (R : TopName → ExportInfo → Prop)
    (h : ∀ t, IsExported lib t.ident.Name = true →
      R t (TopName.record (lib.NewCommentMap fset node node.Comments) filename fset t)) :
    List.Forall₂ R (exportedTopNames lib node) (analyzeFile lib filename fset node) := by
  rw [analyzeFile_eq, List.forall₂_map_right_iff, List.forall₂_same]
  intro t ht
  exact h t (by simpa [exportedTopNames] using (List.mem_filter.mp ht).2)

/-! ## The declaration visitor -/

/-- C1: the records of `analyzeFile` correspond one to one, in order, to the
exported top-level names of the file, and for each of them: if the comment-map
lookup on the enclosing declaration finds at least one comment, or the `Doc`
of the name's own node is present with non-empty text, the record's
`HasComment` is true. -/
theorem C1_documented_has_comment (lib : GoLib) (filename : String) (fset : FileSet)
    (node : File) :
    List.Forall₂
      (fun t r => r.Name = t.ident.Name ∧
        ((0 < (Comments (Filter (lib.NewCommentMap fset node node.Comments)
              t.declNodes)).length ∨
          ∃ doc, t.Doc = some doc ∧ doc.Text ≠ "") → r.HasComment = true))
      (exportedTopNames lib node) (analyzeFile lib filename fset node) := by
  apply forall₂_analyzeFile
  intro t _
  cases t <;>
  · refine ⟨rfl, ?_⟩
    rintro (h | ⟨doc, hdoc, htext⟩)
    · simp [TopName.record, hasComment, TopName.declNodes] at h ⊢
      exact Or.inl h
    · simp [TopName.record, TopName.Doc] at hdoc ⊢
      simp [hdoc, docNonEmpty, htext]

/-- C3: every record of `analyzeFile` has a name for which `IsExported`
holds, that is, whose first rune is an upper-case letter; a name whose first
rune is not upper case (a lower-case letter in particular) is the name of no
record, whatever the comment map and the `Doc` fields are. -/
theorem C3_only_exported_names (lib : GoLib) (filename : String) (fset : FileSet)
    (node : File) :
    (∀ r ∈ analyzeFile lib filename fset node,
      IsExported lib r.Name = true ∧ lib.IsUpper (firstRune r.Name) = true) ∧
    (∀ name : String, lib.IsUpper (firstRune name) = false →
      ∀ r ∈ analyzeFile lib filename fset node, r.Name ≠ name) := by
  have key : ∀ r ∈ analyzeFile lib filename fset node, IsExported lib r.Name = true := by
    intro r hr
    rw [analyzeFile_eq, List.mem_map] at hr
    obtain ⟨t, ht, rfl⟩ := hr
    have hexp : IsExported lib t.ident.Name = true := by
      simpa [exportedTopNames] using (List.mem_filter.mp ht).2
    cases t <;> simpa [TopName.record, TopName.ident] using hexp
  refine ⟨fun r hr => ⟨key r hr, key r hr⟩, ?_⟩
  intro name hname r hr heq
  have h := key r hr
  rw [heq, IsExported, hname] at h
  exact Bool.false_ne_true h

/-- C4: for every exported type spec, the record's `Type` is "struct" for a
struct type, "interface" for an interface type, "func type" for a function
type, and "type" for every other type expression. -/
theorem C4_type_kind (lib : GoLib) (filename : String) (fset : FileSet) (node : File) :
    List.Forall₂
      (fun t r => ∀ d s, t = TopName.type d s →
        r.Name = s.Name.Name ∧
        (s.Type_.kind = ExprKind.StructType → r.Type_ = "struct") ∧
        (s.Type_.kind = ExprKind.InterfaceType → r.Type_ = "interface") ∧
        (s.Type_.kind = ExprKind.FuncType → r.Type_ = "func type") ∧
        (s.Type_.kind ≠ ExprKind.StructType → s.Type_.kind ≠ ExprKind.InterfaceType →
          s.Type_.kind ≠ ExprKind.FuncType → r.Type_ = "type"))
      (exportedTopNames lib node) (analyzeFile lib filename fset node) := by
  apply forall₂_analyzeFile
  intro t _ d s ht
  subst ht
  refine ⟨rfl, ?_, ?_, ?_, ?_⟩
  · intro h; simp [TopName.record, typeStr, h]
  · intro h; simp [TopName.record, typeStr, h]
  · intro h; simp [TopName.record, typeStr, h]
  · intro h1 h2 h3
    cases hk : s.Type_.kind <;> simp_all [TopName.record, typeStr]

/-- C5: for every exported function declaration, the record's `Type` is
"method" if and only if the receiver field list is present and has at least
one entry; otherwise (receiver absent, or present with an empty list) it is
"function". -/
theorem C5_method_iff_receiver (lib : GoLib) (filename : String) (fset : FileSet)
    (node : File) :
    List.Forall₂
      (fun t r => ∀ d, t = TopName.func d →
        r.Name = d.Name.Name ∧
        (r.Type_ = "method" ↔ ∃ recv, d.Recv = some recv ∧ 0 < recv.List_.length) ∧
        (d.Recv = none → r.Type_ = "function") ∧
        (∀ recv, d.Recv = some recv → recv.List_ = [] → r.Type_ = "function"))
      (exportedTopNames lib node) (analyzeFile lib filename fset node) := by
  apply forall₂_analyzeFile
  intro t _ d ht
  subst ht
  have hne : ("function" : String) ≠ "method" := by decide
  refine ⟨rfl, ?_, ?_, ?_⟩
  · cases hr : d.Recv with
    | none => simp [TopName.record, hr, hne]
    | some recv =>
      by_cases hl : 0 < recv.List_.length
      · simp [TopName.record, hr, hl]
      · simp [TopName.record, hr, hl, hne]
  · intro hr; simp [TopName.record, hr]
  · intro recv hr hl; simp [TopName.record, hr, hl]

/-- C6: every exported name of a value spec yields a record whose `Type` is
"constant" when the token of the enclosing declaration is CONST and "variable"
for any other token; two names of one declaration get the same kind. -/
theorem C6_value_kind (lib : GoLib) (filename : String) (fset : FileSet) (node : File) :
    List.Forall₂
      (fun t r => ∀ d s name, t = TopName.value d s name →
        r.Name = name.Name ∧
        (d.Tok = Token.CONST → r.Type_ = "constant") ∧
        (d.Tok ≠ Token.CONST → r.Type_ = "variable"))
      (exportedTopNames lib node) (analyzeFile lib filename fset node) ∧
    (∀ d s₁ name₁ s₂ name₂ r₁ r₂,
      (TopName.value d s₁ name₁, r₁) ∈
        (exportedTopNames lib node).zip (analyzeFile lib filename fset node) →
      (TopName.value d s₂ name₂, r₂) ∈
        (exportedTopNames lib node).zip (analyzeFile lib filename fset node) →
      r₁.Type_ = r₂.Type_) := by
  constructor
  · apply forall₂_analyzeFile
    intro t _ d s name ht
    subst ht
    refine ⟨rfl, ?_, ?_⟩
    · intro h; simp [TopName.record, h]
    · intro h; simp [TopName.record, h]
  · intro d s₁ name₁ s₂ name₂ r₁ r₂ h₁ h₂
    rw [analyzeFile_eq, List.zip_map_right] at h₁ h₂
    simp only [List.mem_map, Prod.map_apply, id_eq, Prod.mk.injEq, Prod.exists] at h₁ h₂
    obtain ⟨a, b, hab, rfl, rfl⟩ := h₁
    obtain ⟨a', b', hab', rfl, rfl⟩ := h₂
    have e1 := List.of_mem_zip hab
    have e2 := List.of_mem_zip hab'
    have hb : b = TopName.value d s₁ name₁ := by
      have := List.mem_iff_get.mp hab
      obtain ⟨i, hi⟩ := this
      simp only [List.get_eq_getElem, List.getElem_zip, Prod.mk.injEq] at hi
      exact hi.2.symm.trans hi.1
    have hb' : b' = TopName.value d s₂ name₂ := by
      have := List.mem_iff_get.mp hab'
      obtain ⟨i, hi⟩ := this
      simp only [List.get_eq_getElem, List.getElem_zip, Prod.mk.injEq] at hi
      exact hi.2.symm.trans hi.1
    subst hb hb'
    simp [TopName.record]

/-- C7: for every const, var or type declaration for which the comment-map
lookup on the declaration finds a comment, every exported member gets
`HasComment = true`, whether or not its own spec has a `Doc`.  In the scenario
`const ( // doc; A = 1; B = 2 )`, where the comment map holds the comment
under the value spec of `A` (node 2), both `A` and `B` are marked documented. -/
theorem C7_group_comment_covers_members (lib : GoLib) (filename : String) (fset : FileSet)
    (node : File) :
    List.Forall₂
      (fun t r => r.Name = t.ident.Name ∧
        ∀ d, ((∃ s name, t = TopName.value d s name) ∨ ∃ s, t = TopName.type d s) →
          0 < (Comments (Filter (lib.NewCommentMap fset node node.Comments) d.nodes)).length →
          r.HasComment = true)
      (exportedTopNames lib node) (analyzeFile lib filename fset node) ∧
    (IsExported lib "A" = true → IsExported lib "B" = true →
      lib.NewCommentMap fset constGroupFile constGroupFile.Comments 2 ≠ [] →
      (analyzeFile lib filename fset constGroupFile).map (fun r => (r.Name, r.HasComment))
        = [("A", true), ("B", true)]) := by
  constructor
  · apply forall₂_analyzeFile
    intro t _
    refine ⟨by cases t <;> rfl, ?_⟩
    rintro d (⟨s, name, rfl⟩ | ⟨s, rfl⟩) h <;>
    · simp [TopName.record, hasComment] at h ⊢
      exact Or.inl h
  · intro hA hB hc
    have hg : hasComment (lib.NewCommentMap fset constGroupFile constGroupFile.Comments)
        constGroupDecl.nodes = true :=
      (hasComment_iff _ _).mpr ⟨2, by decide, hc⟩
    have hnames : exportedTopNames lib constGroupFile
        = [TopName.value constGroupDecl constGroupSpecA { id := 5, NamePos := 18, Name := "A" },
           TopName.value constGroupDecl constGroupSpecB { id := 8, NamePos := 25, Name := "B" }] := by
      simp [exportedTopNames, File.topNames, constGroupFile, Decl.topNames, constGroupDecl,
        constGroupSpecA, constGroupSpecB, Spec.topNames, List.filter_cons, TopName.ident, hA, hB]
    rw [analyzeFile_eq, hnames]
    simp [TopName.record, hg]

/-! ## The reporter -/

/-- The loop over the records appends one line for every record without a
comment, numbered by the index of the record. -/
theorem printExports_eq (exports : List ExportInfo) (i : Nat) (out : List Out) :
    printExports exports i out
      = out ++ ((exports.enumFrom i).filter fun p => !p.2.HasComment).map reportLine := by
  induction exports generalizing i out with
  | nil => simp [printExports]
  | cons exp rest ih =>
    cases h : exp.HasComment <;>
      simp [printExports, h, ih, List.enumFrom_cons, List.filter_cons, reportLine]

/-- The body of the loop over the map appends the block of the entry. -/
theorem reportStep_eq (out : List Out) (entry : String × List ExportInfo) :
    reportStep out entry = out ++ reportBlock entry := by
  simp [reportStep, reportBlock, printExports_eq]

/-- The loop over the map appends the blocks of the entries in the order of
the iteration. -/
theorem reportLoop_eq (entries : List (String × List ExportInfo)) (out : List Out) :
    entries.foldl reportStep out = out ++ entries.flatMap reportBlock :=
  foldl_append_eq reportStep reportBlock reportStep_eq entries out

/-- A header in a block is the header of the entry. -/
theorem header_mem_reportBlock (file : String) (entry : String × List ExportInfo) :
    Out.header file ∈ reportBlock entry ↔ entry.1 = file := by
  unfold reportBlock
  rw [List.mem_cons, printExports_eq]
  constructor
  · rintro (h | h)
    · exact (Out.header.inj h).symm
    · rw [List.nil_append, List.mem_map] at h
      obtain ⟨p, _, hp⟩ := h
      cases hp
  · intro h
    exact Or.inl (h ▸ rfl)

/-! ## The loop over the files -/

/-- The keys of the map after an assignment. -/
theorem mem_keys_set (m : ExportMap) (file : String) (exports : List ExportInfo) (k : String) :
    k ∈ (m.set file exports).map Prod.fst ↔ k = file ∨ k ∈ m.map Prod.fst := by
  induction m with
  | nil => simp [ExportMap.set]
  | cons e rest ih =>
    obtain ⟨k', v'⟩ := e
    by_cases hk : k' = file
    · subst hk
      simp [ExportMap.set]
    · simp only [ExportMap.set, hk, if_false, List.map_cons, List.mem_cons, ih]
      tauto

/-- An entry of the map after an assignment is the new entry or an old one. -/
theorem mem_set (m : ExportMap) (file : String) (exports : List ExportInfo)
    (e : String × List ExportInfo) (he : e ∈ m.set file exports) :
    e = (file, exports) ∨ e ∈ m := by
  induction m with
  | nil => simpa [ExportMap.set] using he
  | cons e' rest ih =>
    obtain ⟨k', v'⟩ := e'
    by_cases hk : k' = file
    · simp only [ExportMap.set, hk, if_true, List.mem_cons] at he
      rcases he with he | he
      · exact Or.inl he
      · exact Or.inr (List.mem_cons_of_mem _ he)
    · simp only [ExportMap.set, hk, if_false, List.mem_cons] at he
      rcases he with he | he
      · exact Or.inr (he ▸ List.mem_cons_self _ _)
      · rcases ih he with h | h
        · exact Or.inl h
        · exact Or.inr (List.mem_cons_of_mem _ h)

/-- The keys of the map after one file. -/
theorem parseStep_keys (lib : GoLib) (env : Env) (st : List Out × ExportMap) (file k : String) :
    k ∈ (parseStep lib env st file).2.map Prod.fst
      ↔ k ∈ st.2.map Prod.fst ∨ (k = file ∧ Stored lib env k) := by
  unfold parseStep Stored
  cases h : env.ParseFile file with
  | error err =>
    constructor
    · exact fun hk => Or.inl hk
    · rintro (hk | ⟨rfl, fset, node, h', _⟩)
      · exact hk
      · rw [h] at h'
        cases h'
  | ok p =>
    obtain ⟨fset, node⟩ := p
    by_cases hne : analyzeFile lib file fset node = []
    · simp only [hne, List.length_nil, gt_iff_lt, lt_self_iff_false, if_false]
      constructor
      · exact fun hk => Or.inl hk
      · rintro (hk | ⟨rfl, fset', node', h', hne'⟩)
        · exact hk
        · rw [h] at h'
          cases h'
          exact absurd hne hne'
    · have hpos : (analyzeFile lib file fset node).length > 0 := List.length_pos.mpr hne
      simp only [hpos, if_true, mem_keys_set]
      constructor
      · rintro (rfl | hk)
        · exact Or.inr ⟨rfl, fset, node, h, hne⟩
        · exact Or.inl hk
      · rintro (hk | ⟨rfl, _⟩)
        · exact Or.inr hk
        · exact Or.inl rfl

/-- The keys of the map after the loop over the files. -/
theorem parseLoop_keys (lib : GoLib) (env : Env) (files : List String)
    (st : List Out × ExportMap) (k : String) :
    k ∈ (files.foldl (parseStep lib env) st).2.map Prod.fst
      ↔ k ∈ st.2.map Prod.fst ∨ (k ∈ files ∧ Stored lib env k) := by
  induction files generalizing st with
  | nil => simp
  | cons f fs ih =>
    rw [List.foldl_cons, ih, parseStep_keys]
    simp only [List.mem_cons]
    tauto

/-- Every entry of the map holds the records of its file. -/
theorem parseLoop_entries (lib : GoLib) (env : Env) (files : List String)
    (st : List Out × ExportMap) (hst : ∀ e ∈ st.2, EntryOk lib env e) :
    ∀ e ∈ (files.foldl (parseStep lib env) st).2, EntryOk lib env e := by
  induction files generalizing st with
  | nil => simpa using hst
  | cons f fs ih =>
    rw [List.foldl_cons]
    apply ih
    intro e he
    unfold parseStep at he
    cases h : env.ParseFile f with
    | error err =>
      rw [h] at he
      exact hst e he
    | ok p =>
      obtain ⟨fset, node⟩ := p
      rw [h] at he
      simp only at he
      split at he
      · rcases mem_set _ _ _ _ he with rfl | he'
        · exact ⟨fset, node, h, rfl⟩
        · exact hst e he'
      · exact hst e he

/-- The loop over the files prints parse errors only. -/
theorem parseLoop_out (lib : GoLib) (env : Env) (files : List String)
    (st : List Out × ExportMap) :
    ∀ o ∈ (files.foldl (parseStep lib env) st).1,
      o ∈ st.1 ∨ ∃ file err, o = Out.parseError file err := by
  induction files generalizing st with
  | nil => intro o ho; exact Or.inl ho
  | cons f fs ih =>
    intro o ho
    rw [List.foldl_cons] at ho
    rcases ih _ o ho with h | h
    · unfold parseStep at h
      cases hp : env.ParseFile f with
      | error err =>
        rw [hp] at h
        simp only [List.mem_append, List.mem_singleton] at h
        rcases h with h | h
        · exact Or.inl h
        · exact Or.inr ⟨f, err, h⟩
      | ok p =>
        obtain ⟨fset, node⟩ := p
        rw [hp] at h
        simp only at h
        split at h <;> exact Or.inl h
    · exact Or.inr h

/-- The output of `main` when the walk succeeds: the parse errors, then the
blocks of the stored files in the order of the iteration. -/
theorem main_eq_of_walk (lib : GoLib) (env : Env) (files : List String)
    (hwalk : Walk env.entries [] = (files, none)) :
    main lib env = (files.foldl (parseStep lib env) ([], [])).1
      ++ (env.rangeOrder (files.foldl (parseStep lib env) ([], [])).2).flatMap reportBlock := by
  simp only [main, hwalk, reportLoop_eq]

/-- The output of `main` when the walk fails. -/
theorem main_eq_of_walk_error (lib : GoLib) (env : Env) (files : List String) (err : String)
    (hwalk : Walk env.entries [] = (files, some err)) :
    main lib env = [Out.walkError err] := by
  simp only [main, hwalk]

/-- The text of a sequence of calls that starts with `o`. -/
theorem stdout_cons (o : Out) (out : List Out) : stdout (o :: out) = o.text ++ stdout out := by
  simp only [stdout, List.map_cons, String.join_eq, List.flatten_cons]
  apply String.ext
  simp [String.data_append]

/-- The lines of a block are as many as the records without a comment. -/
theorem length_filter_enumFrom (exports : List ExportInfo) (i : Nat) :
    ((exports.enumFrom i).filter fun p => !p.2.HasComment).length
      = exports.countP fun r => !r.HasComment := by
  induction exports generalizing i with
  | nil => rfl
  | cons exp rest ih =>
    cases h : exp.HasComment <;>
      simp [List.enumFrom_cons, List.filter_cons, List.countP_cons, h, ih]

/-- An indexed record of a sequence is a record of the sequence. -/
theorem snd_mem_of_mem_enumFrom (exports : List ExportInfo) (i : Nat) (p : Nat × ExportInfo)
    (hp : p ∈ exports.enumFrom i) : p.2 ∈ exports := by
  induction exports generalizing i with
  | nil => simp at hp
  | cons exp rest ih =>
    rw [List.enumFrom_cons, List.mem_cons] at hp
    rcases hp with rfl | hp
    · exact List.mem_cons_self _ _
    · exact List.mem_cons_of_mem _ (ih _ hp)

/-- The entry of a stored file is in the map after the loop over the files. -/
theorem parseLoop_mem (lib : GoLib) (env : Env) (files : List String) (file : String)
    (fset : FileSet) (node : File) (hfile : file ∈ files)
    (hparse : env.ParseFile file = Except.ok (fset, node))
    (hne : analyzeFile lib file fset node ≠ []) :
    (file, analyzeFile lib file fset node) ∈ (files.foldl (parseStep lib env) ([], [])).2 := by
  have hk : file ∈ (files.foldl (parseStep lib env) ([], [])).2.map Prod.fst :=
    (parseLoop_keys lib env files ([], []) file).mpr (Or.inr ⟨hfile, fset, node, hparse, hne⟩)
  obtain ⟨⟨k, v⟩, he, hkv⟩ := List.mem_map.mp hk
  simp only at hkv
  subst hkv
  obtain ⟨fset', node', hp', hv⟩ :=
    parseLoop_entries lib env files ([], []) (by simp) (k, v) he
  simp only at hp' hv
  rw [hparse] at hp'
  cases hp'
  rw [← hv]
  exact he

/-- The block of a stored file is part of the output of `main`. -/
theorem main_block (lib : GoLib) (env : Env) (hperm : ∀ m, (env.rangeOrder m).Perm m)
    (files : List String) (hwalk : Walk env.entries [] = (files, none))
    (file : String) (fset : FileSet) (node : File) (hfile : file ∈ files)
    (hparse : env.ParseFile file = Except.ok (fset, node))
    (hne : analyzeFile lib file fset node ≠ []) :
    ∃ (pre : List Out) (rest : List (String × List ExportInfo)), main lib env
      = pre ++ reportBlock (file, analyzeFile lib file fset node) ++ rest.flatMap reportBlock := by
  have hmem := (hperm _).mem_iff.mpr (parseLoop_mem lib env files file fset node hfile hparse hne)
  obtain ⟨l₁, l₂, hsplit⟩ := List.append_of_mem hmem
  refine ⟨(files.foldl (parseStep lib env) ([], [])).1 ++ l₁.flatMap reportBlock, l₂, ?_⟩
  rw [main_eq_of_walk lib env files hwalk, hsplit]
  simp [List.flatMap_append, List.flatMap_cons, List.append_assoc]

/-- C8: for every record sequence, the reporter prints one line for each
record with `HasComment = false`, numbered by the record's index plus one, and
no line for a record with `HasComment = true`, the lines in the order of the
records; a file with only the documented `func Foo` yields no line. -/
theorem C8_report_lines (exports : List ExportInfo) :
    printExports exports 0 []
      = (exports.enum.filter fun p => !p.2.HasComment).map
          (fun p => Out.record (p.1 + 1) p.2.Name p.2.Type_ p.2.Line) ∧
    (printExports exports 0 []).length = exports.countP (fun r => !r.HasComment) ∧
    (∀ (lib : GoLib) (filename : String) (fset : FileSet),
      printExports (analyzeFile lib filename fset fooFile) 0 [] = []) := by
  refine ⟨?_, ?_, ?_⟩
  · rw [printExports_eq, List.nil_append, List.enum_eq_enumFrom]
    rfl
  · rw [printExports_eq, List.nil_append, List.length_map, length_filter_enumFrom]
  · intro lib filename fset
    rw [printExports_eq, List.nil_append, analyzeFile_eq]
    have htext : docNonEmpty (some { id := 2, Comments := [3], Text := "Foo does X.\n" }) = true := by
      decide
    simp only [List.map_eq_nil_iff, List.filter_eq_nil_iff]
    intro p hp
    have hr := snd_mem_of_mem_enumFrom _ _ _ hp
    simp only [List.mem_map, exportedTopNames, File.topNames, fooFile, List.flatMap_cons,
      List.flatMap_nil, Decl.topNames, List.append_nil, List.mem_filter, List.mem_singleton] at hr
    obtain ⟨t, ⟨rfl, _⟩, hrec⟩ := hr
    simp [← hrec, TopName.record, htext]

/-- C10 (amended): the text of a file block is a newline, "Файл: ", the path
and a newline, then for each record without a comment the line
"<ordinal>. <name> (<kind>) - строка <line>" and a newline; the file with only
the undocumented `func Bar` yields the line "1. Bar (function) - строка N". -/
theorem C10_block_text (file : String) (exports : List ExportInfo) :
    stdout (reportStep [] (file, exports))
      = "\nФайл: " ++ file ++ "\n" ++ String.join
          ((exports.enum.filter fun p => !p.2.HasComment).map fun p =>
            toString (p.1 + 1) ++ ". " ++ p.2.Name ++ " (" ++ p.2.Type_ ++ ") - строка "
              ++ toString p.2.Line ++ "\n") ∧
    (∀ (lib : GoLib) (fset : FileSet), IsExported lib "Bar" = true →
      (∀ n, lib.NewCommentMap fset barFile barFile.Comments n = []) →
      stdout (reportStep [] (file, analyzeFile lib file fset barFile))
        = "\nФайл: " ++ file ++ "\n"
            ++ ("1. Bar (function) - строка " ++ toString (fset.Line 17) ++ "\n")) := by
  have hblock : ∀ l : List ExportInfo, stdout (reportStep [] (file, l))
      = "\nФайл: " ++ file ++ "\n" ++ String.join
          ((l.enum.filter fun p => !p.2.HasComment).map fun p =>
            toString (p.1 + 1) ++ ". " ++ p.2.Name ++ " (" ++ p.2.Type_ ++ ") - строка "
              ++ toString p.2.Line ++ "\n") := by
    intro l
    rw [reportStep_eq, List.nil_append, reportBlock, stdout_cons, printExports_eq,
      List.nil_append, stdout, List.map_map, List.enum_eq_enumFrom]
    rfl
  refine ⟨hblock exports, ?_⟩
  intro lib fset hexp hmap
  have hno : hasComment (lib.NewCommentMap fset barFile barFile.Comments)
      (TopName.func
        { id := 1, Doc := none, Recv := none, Name := { id := 2, NamePos := 17, Name := "Bar" },
          Type_ := [3, 4], Body := some [5] }).declNodes = false := by
    rw [Bool.eq_false_iff, Ne, hasComment_iff]
    rintro ⟨n, _, hn⟩
    exact hn (hmap n)
  have hrec : analyzeFile lib file fset barFile
      = [{ File := file, Line := fset.Line 17, Name := "Bar", Type_ := "function",
           HasComment := false }] := by
    rw [analyzeFile_eq]
    simp only [TopName.declNodes] at hno
    simp [exportedTopNames, File.topNames, barFile, Decl.topNames, List.filter_cons,
      TopName.ident, hexp, TopName.record, docNonEmpty]
    simpa [barFile] using hno
  rw [hblock, hrec]
  have hlit : (toString 1 ++ ". " ++ "Bar" ++ " (" ++ "function" ++ ") - строка " : String)
      = "1. Bar (function) - строка " := by decide
  simp only [List.enum, List.enumFrom, List.filter_cons, Bool.not_false, if_true,
    List.filter_nil, List.map_cons, List.map_nil, String.join, List.foldl_cons, List.foldl_nil,
    String.empty_append, Nat.zero_add, hlit]

/-- C10 (counterexample): for the file with only the undocumented `func Bar`
on line 3, the text written is not "File: bar.go" followed by
"1. Bar (function) - line 3": the words of the format are "Файл" and
"строка". -/
theorem C10_counterexample :
    analyzeFile exampleLib "bar.go" exampleFset barFile
      = [{ File := "bar.go", Line := 3, Name := "Bar", Type_ := "function",
           HasComment := false }] ∧
    stdout (reportStep [] ("bar.go", analyzeFile exampleLib "bar.go" exampleFset barFile))
      = "\nФайл: bar.go\n1. Bar (function) - строка 3\n" ∧
    stdout (reportStep [] ("bar.go", analyzeFile exampleLib "bar.go" exampleFset barFile))
      ≠ "\nFile: bar.go\n1. Bar (function) - line 3\n" := by
  decide

/-- C9: `main` prints a header for a file if and only if the walk succeeded,
the file is among the collected files, it parsed, and `analyzeFile` returned
at least one record for it; exactly these files are keys of the results map;
and a file all of whose records are documented gets its header with no record
line after it (the next call, if any, prints another header). -/
theorem C9_header_iff_stored (lib : GoLib) (env : Env)
    (hperm : ∀ m, (env.rangeOrder m).Perm m) (file : String) :
    (Out.header file ∈ main lib env ↔
      (Walk env.entries []).2 = none ∧ file ∈ (Walk env.entries []).1 ∧
        ∃ fset node, env.ParseFile file = Except.ok (fset, node) ∧
          analyzeFile lib file fset node ≠ []) ∧
    (file ∈ (((Walk env.entries []).1.foldl (parseStep lib env) ([], [])).2.map Prod.fst) ↔
      file ∈ (Walk env.entries []).1 ∧
        ∃ fset node, env.ParseFile file = Except.ok (fset, node) ∧
          analyzeFile lib file fset node ≠ []) ∧
    (∀ fset node, (Walk env.entries []).2 = none → file ∈ (Walk env.entries []).1 →
      env.ParseFile file = Except.ok (fset, node) → analyzeFile lib file fset node ≠ [] →
      (∀ r ∈ analyzeFile lib file fset node, r.HasComment = true) →
      ∃ pre post, main lib env = pre ++ Out.header file :: post ∧
        ∀ o ∈ post.head?, ∃ f, o = Out.header f) := by
  have hkeys := parseLoop_keys lib env (Walk env.entries []).1 ([], []) file
  simp only [List.map_nil, List.not_mem_nil, false_or] at hkeys
  refine ⟨?_, hkeys, ?_⟩
  · cases hw : Walk env.entries [] with
    | mk files err =>
      cases err with
      | some e =>
        rw [main_eq_of_walk_error lib env files e hw]
        simp
      | none =>
        have hk2 : file ∈ (files.foldl (parseStep lib env) ([], [])).2.map Prod.fst
            ↔ file ∈ files ∧ Stored lib env file := by
          simpa using parseLoop_keys lib env files ([], []) file
        rw [main_eq_of_walk lib env files hw, List.mem_append, List.mem_flatMap]
        simp only [true_and]
        show _ ↔ file ∈ files ∧ Stored lib env file
        rw [← hk2]
        constructor
        · rintro (h | ⟨e, he, hb⟩)
          · rcases parseLoop_out lib env files ([], []) _ h with h0 | ⟨f, err, h0⟩
            · simp at h0
            · cases h0
          · rw [header_mem_reportBlock] at hb
            exact List.mem_map.mpr ⟨e, (hperm _).mem_iff.mp he, hb⟩
        · intro h
          obtain ⟨e, he, hb⟩ := List.mem_map.mp h
          exact Or.inr ⟨e, (hperm _).mem_iff.mpr he, (header_mem_reportBlock file e).mpr hb⟩
  · intro fset node hnone hfile hparse hne hall
    have hw : Walk env.entries [] = ((Walk env.entries []).1, none) := by
      rw [← hnone]
    obtain ⟨pre, rest, hmain⟩ := main_block lib env hperm _ hw file fset node hfile hparse hne
    refine ⟨pre, rest.flatMap reportBlock, ?_, ?_⟩
    · rw [hmain, reportBlock, printExports_eq, List.nil_append]
      have hnil : ((analyzeFile lib file fset node).enumFrom 0).filter
          (fun p => !p.2.HasComment) = [] := by
        rw [List.filter_eq_nil_iff]
        intro p hp
        simp [hall p.2 (snd_mem_of_mem_enumFrom _ _ _ hp)]
      simp [hnil]
    · intro o ho
      cases rest with
      | nil => simp at ho
      | cons e es =>
        simp only [List.flatMap_cons, reportBlock, List.cons_append, List.head?_cons,
          Option.mem_def, Option.some.injEq] at ho
        exact ⟨e.1, ho.symm⟩

/-- C9 (witness): in the example directory, `foo.go` has one record, which is
documented: its header is printed and it is the last call. -/
theorem C9_header_iff_stored_witness :
    Out.header "root/foo.go" ∈ main exampleLib exampleEnv ∧
    Out.header "root/notes.txt" ∉ main exampleLib exampleEnv :=
  ⟨(C9_header_iff_stored exampleLib exampleEnv (fun m => List.Perm.refl m) "root/foo.go").1.mpr
      ⟨by decide, by decide, exampleFset, fooFile, rfl, by decide⟩,
   fun h => absurd
    ((C9_header_iff_stored exampleLib exampleEnv (fun m => List.Perm.refl m)
      "root/notes.txt").1.mp h).2.1 (by decide)⟩

/-- C2: the records of a parsed file correspond one to one to its exported
top-level names, and for each of them: if the comment-map lookup on the
enclosing declaration finds no comment and the name's own node has no `Doc`
or a `Doc` with empty text, the record has `HasComment = false`; and `main`
prints a line for every record with `HasComment = false` under the header of
its file (only record lines stand between the header and the line). -/
theorem C2_undocumented_reported (lib : GoLib) (env : Env)
    (hperm : ∀ m, (env.rangeOrder m).Perm m) (files : List String)
    (hwalk : Walk env.entries [] = (files, none)) (file : String) (hfile : file ∈ files)
    (fset : FileSet) (node : File) (hparse : env.ParseFile file = Except.ok (fset, node)) :
    List.Forall₂
      (fun t r => r.Name = t.ident.Name ∧
        ((Comments (Filter (lib.NewCommentMap fset node node.Comments) t.declNodes)).length = 0 →
          (t.Doc = none ∨ ∃ doc, t.Doc = some doc ∧ doc.Text = "") → r.HasComment = false))
      (exportedTopNames lib node) (analyzeFile lib file fset node) ∧
    (∀ i r, (analyzeFile lib file fset node)[i]? = some r → r.HasComment = false →
      ∃ pre mid post, main lib env
          = pre ++ Out.header file :: (mid ++ Out.record (i + 1) r.Name r.Type_ r.Line :: post) ∧
        ∀ o ∈ mid, ∃ j name type line, o = Out.record j name type line) := by
  constructor
  · apply forall₂_analyzeFile
    intro t _
    refine ⟨by cases t <;> rfl, ?_⟩
    intro h hdoc
    have hc : hasComment (lib.NewCommentMap fset node node.Comments) t.declNodes = false := by
      simp only [hasComment, h]
      rfl
    have hd : docNonEmpty t.Doc = false := by
      rcases hdoc with hdoc | ⟨doc, hdoc, htext⟩
      · rw [hdoc]
        rfl
      · rw [hdoc]
        simp [docNonEmpty, htext]
    cases t <;>
    · simp only [TopName.declNodes, TopName.Doc] at hc hd
      simp [TopName.record, hc, hd]
  · intro i r hi hr
    have hne : analyzeFile lib file fset node ≠ [] := by
      intro h0
      rw [h0] at hi
      simp at hi
    obtain ⟨pre, rest, hmain⟩ := main_block lib env hperm files hwalk file fset node hfile hparse hne
    have hmem : Out.record (i + 1) r.Name r.Type_ r.Line
        ∈ printExports (analyzeFile lib file fset node) 0 [] := by
      rw [printExports_eq, List.nil_append, List.mem_map]
      refine ⟨(i, r), List.mem_filter.mpr ⟨?_, by simp [hr]⟩, rfl⟩
      exact List.mk_mem_enum_iff_getElem?.mpr hi
    obtain ⟨mid, post, hsplit⟩ := List.append_of_mem hmem
    refine ⟨pre, mid, post ++ rest.flatMap reportBlock, ?_, ?_⟩
    · rw [hmain, reportBlock, hsplit]
      simp [List.append_assoc]
    · intro o ho
      have ho2 : o ∈ printExports (analyzeFile lib file fset node) 0 [] := by
        rw [hsplit]
        exact List.mem_append_left _ ho
      rw [printExports_eq, List.nil_append, List.mem_map] at ho2
      obtain ⟨p, _, hp⟩ := ho2
      exact ⟨p.1 + 1, p.2.Name, p.2.Type_, p.2.Line, hp.symm⟩

/-- C2 (witness): in the example directory, the undocumented `Bar` of
`bar.go` is printed under the header of `bar.go`. -/
theorem C2_undocumented_reported_witness :
    ∃ pre mid post, main exampleLib exampleEnv
        = pre ++ Out.header "root/bar.go" :: (mid ++ Out.record 1 "Bar" "function" 3 :: post) ∧
      ∀ o ∈ mid, ∃ j name type line, o = Out.record j name type line :=
  (C2_undocumented_reported exampleLib exampleEnv (fun m => List.Perm.refl m)
    ["root/bar.go", "root/foo.go"] (by decide) "root/bar.go" (by decide)
    exampleFset barFile rfl).2 0
    { File := "root/bar.go", Line := 3, Name := "Bar", Type_ := "function", HasComment := false }
    (by decide) rfl

/-! ## Files that do not parse -/

/-- One step of the loop over the files: the warning, if any, is appended. -/
theorem parseStep_fst (lib : GoLib) (env : Env) (st : List Out × ExportMap) (file : String) :
    (parseStep lib env st file).1 = st.1 ++ (parseWarning env file).toList := by
  unfold parseStep parseWarning
  cases h : env.ParseFile file with
  | error err => simp
  | ok p =>
    obtain ⟨fset, node⟩ := p
    simp only [Option.toList, List.append_nil]
    split <;> rfl

/-- One step of the loop over the files leaves the map as it is when the file
does not parse. -/
theorem parseStep_snd_of_error (lib : GoLib) (env : Env) (st : List Out × ExportMap)
    (file : String) (h : parses env file = false) :
    (parseStep lib env st file).2 = st.2 := by
  unfold parses at h
  unfold parseStep
  cases hp : env.ParseFile file with
  | error err => rfl
  | ok p => rw [hp] at h; cases h

/-- The map after one step depends on the map before it only. -/
theorem parseStep_snd_congr (lib : GoLib) (env : Env) (st st2 : List Out × ExportMap)
    (file : String) (h : st.2 = st2.2) :
    (parseStep lib env st file).2 = (parseStep lib env st2 file).2 := by
  unfold parseStep
  cases hp : env.ParseFile file with
  | error err => exact h
  | ok p =>
    obtain ⟨fset, node⟩ := p
    simp only
    split
    · simp only [h]
    · exact h

/-- The warnings of the loop over the files, in the order of the files. -/
theorem parseLoop_fst (lib : GoLib) (env : Env) (files : List String)
    (st : List Out × ExportMap) :
    (files.foldl (parseStep lib env) st).1 = st.1 ++ files.filterMap (parseWarning env) := by
  induction files generalizing st with
  | nil => simp
  | cons f fs ih =>
    rw [List.foldl_cons, ih, parseStep_fst, List.filterMap_cons]
    cases parseWarning env f <;> simp

/-- Leaving out files that do not parse does not change the map. -/
theorem parseLoop_snd_filter (lib : GoLib) (env : Env) (keep : String → Bool)
    (hkeep : ∀ f, keep f = false → parses env f = false) (files : List String)
    (st st2 : List Out × ExportMap) (h : st.2 = st2.2) :
    ((files.filter keep).foldl (parseStep lib env) st2).2
      = (files.foldl (parseStep lib env) st).2 := by
  induction files generalizing st st2 with
  | nil => exact h.symm
  | cons f fs ih =>
    rw [List.foldl_cons, List.filter_cons]
    cases hk : keep f with
    | true =>
      simp only [if_true, List.foldl_cons]
      exact ih _ _ (parseStep_snd_congr lib env st st2 f h)
    | false =>
      simp only [Bool.false_eq_true, if_false]
      exact ih _ _ ((parseStep_snd_of_error lib env st f (hkeep f hk)).trans h)

/-- Leaving out a file that does not parse removes its warnings only. -/
theorem filterMap_parseWarning_filter (env : Env) (bad err : String)
    (hbad : env.ParseFile bad = Except.error err) (files : List String) :
    (files.filter fun f => f ≠ bad).filterMap (parseWarning env)
      = (files.filterMap (parseWarning env)).filter fun o => o ≠ Out.parseError bad err := by
  induction files with
  | nil => rfl
  | cons f fs ih =>
    by_cases hf : f = bad
    · subst hf
      have hw : parseWarning env f = some (Out.parseError f err) := by
        simp [parseWarning, hbad]
      simp only [List.filter_cons, List.filterMap_cons, hw, ne_eq, not_true_eq_false,
        decide_False, Bool.false_eq_true, if_false]
      exact ih
    · rw [List.filter_cons]
      simp only [ne_eq, hf, not_false_eq_true, decide_True, if_true, List.filterMap_cons]
      cases hw : parseWarning env f with
      | none => simpa using ih
      | some o =>
        have ho : o ≠ Out.parseError bad err := by
          unfold parseWarning at hw
          cases hp : env.ParseFile f with
          | error e =>
            rw [hp] at hw
            simp only [Option.some.injEq] at hw
            rw [← hw]
            intro h
            exact hf (Out.parseError.inj h).1
          | ok p => rw [hp] at hw; cases hw
        simp only [List.filter_cons, ne_eq, ho, not_false_eq_true, decide_True, if_true]
        rw [← ih]

/-- The warnings for a file that does not parse are as many as its
occurrences among the files. -/
theorem count_parseWarning (env : Env) (bad err : String)
    (hbad : env.ParseFile bad = Except.error err) (files : List String) :
    (files.filterMap (parseWarning env)).count (Out.parseError bad err) = files.count bad := by
  induction files with
  | nil => rfl
  | cons f fs ih =>
    by_cases hf : f = bad
    · subst hf
      simp [List.filterMap_cons, parseWarning, hbad, ih]
    · rw [List.filterMap_cons, List.count_cons_of_ne (fun h => hf h.symm)]
      cases hw : parseWarning env f with
      | none => simpa using ih
      | some o =>
        have ho : o ≠ Out.parseError bad err := by
          unfold parseWarning at hw
          cases hp : env.ParseFile f with
          | error e =>
            rw [hp] at hw
            simp only [Option.some.injEq] at hw
            rw [← hw]
            intro h
            exact hf (Out.parseError.inj h).1
          | ok p => rw [hp] at hw; cases hw
        simp only
        rw [List.count_cons_of_ne (fun h => ho h.symm), ih]

/-- A block holds no warning. -/
theorem parseError_not_mem_reportBlock (file err : String) (entry : String × List ExportInfo) :
    Out.parseError file err ∉ reportBlock entry := by
  unfold reportBlock
  rw [List.mem_cons, printExports_eq, List.nil_append, List.mem_map]
  rintro (h | ⟨p, _, hp⟩)
  · cases h
  · cases hp

/-- C11: when the walk succeeds, `main` prints one warning for every file of
the list that does not parse, in the order of the files, then the report
blocks.  A file `bad` whose parse fails with `err` gets the warning with its
path and the error once for each of its occurrences in the list, is no key of
the results map and gets no header; the map and the other warnings are what
they are for the list without `bad`.  With one parseable and one invalid file
the output is the warning and the block of the parseable file. -/
theorem C11_parse_failure_skipped (lib : GoLib) (env : Env)
    (hperm : ∀ m, (env.rangeOrder m).Perm m) (files : List String)
    (hwalk : Walk env.entries [] = (files, none)) (bad err : String)
    (hbad : env.ParseFile bad = Except.error err) :
    main lib env = files.filterMap (parseWarning env)
      ++ (env.rangeOrder (files.foldl (parseStep lib env) ([], [])).2).flatMap reportBlock ∧
    (main lib env).count (Out.parseError bad err) = files.count bad ∧
    (Out.parseError bad err).text = "Error parsing " ++ bad ++ ": " ++ err ++ "\n" ∧
    bad ∉ (files.foldl (parseStep lib env) ([], [])).2.map Prod.fst ∧
    Out.header bad ∉ main lib env ∧
    ((files.filter fun f => f ≠ bad).foldl (parseStep lib env) ([], [])).2
      = (files.foldl (parseStep lib env) ([], [])).2 ∧
    ((files.filter fun f => f ≠ bad).foldl (parseStep lib env) ([], [])).1
      = (files.foldl (parseStep lib env) ([], [])).1.filter
          (fun o => o ≠ Out.parseError bad err) ∧
    (∀ good fset node, env.ParseFile good = Except.ok (fset, node) →
      (files = [good, bad] ∨ files = [bad, good]) →
      main lib env = Out.parseError bad err ::
        (if analyzeFile lib good fset node = [] then []
         else reportBlock (good, analyzeFile lib good fset node))) := by
  have hmain : main lib env = files.filterMap (parseWarning env)
      ++ (env.rangeOrder (files.foldl (parseStep lib env) ([], [])).2).flatMap reportBlock := by
    rw [main_eq_of_walk lib env files hwalk, parseLoop_fst, List.nil_append]
  have hnotstored : ¬ Stored lib env bad := by
    rintro ⟨fset, node, hp, _⟩
    rw [hbad] at hp
    cases hp
  have hkey : bad ∉ (files.foldl (parseStep lib env) ([], [])).2.map Prod.fst := by
    rw [parseLoop_keys]
    rintro (h | ⟨_, h⟩)
    · simp at h
    · exact hnotstored h
  have hparses : parses env bad = false := by
    simp [parses, hbad]
  refine ⟨hmain, ?_, rfl, hkey, ?_, ?_, ?_, ?_⟩
  · rw [hmain, List.count_append, count_parseWarning env bad err hbad]
    have hzero : ((env.rangeOrder (files.foldl (parseStep lib env) ([], [])).2).flatMap
        reportBlock).count (Out.parseError bad err) = 0 := by
      rw [List.count_eq_zero, List.mem_flatMap]
      rintro ⟨e, _, he⟩
      exact parseError_not_mem_reportBlock bad err e he
    rw [hzero, Nat.add_zero]
  · rw [hmain, List.mem_append, List.mem_flatMap]
    rintro (h | ⟨e, he, hb⟩)
    · rw [List.mem_filterMap] at h
      obtain ⟨f, _, hf⟩ := h
      unfold parseWarning at hf
      cases hp : env.ParseFile f with
      | error e => rw [hp] at hf; cases hf
      | ok p => rw [hp] at hf; cases hf
    · rw [header_mem_reportBlock] at hb
      exact hkey (List.mem_map.mpr ⟨e, (hperm _).mem_iff.mp he, hb⟩)
  · apply parseLoop_snd_filter lib env (fun f => f ≠ bad) _ files _ _ rfl
    intro f hf
    have hfb : f = bad := by simpa using hf
    rw [hfb]
    exact hparses
  · rw [parseLoop_fst, parseLoop_fst, List.nil_append, List.nil_append]
    exact filterMap_parseWarning_filter env bad err hbad files
  · intro good fset node hgood hfiles
    have hwb : parseWarning env bad = some (Out.parseError bad err) := by
      simp [parseWarning, hbad]
    have hwg : parseWarning env good = none := by
      simp [parseWarning, hgood]
    have hwarn : files.filterMap (parseWarning env) = [Out.parseError bad err] := by
      rcases hfiles with rfl | rfl <;> simp [List.filterMap_cons, hwb, hwg]
    have hmap : (files.foldl (parseStep lib env) ([], [])).2
        = if analyzeFile lib good fset node = [] then []
          else [(good, analyzeFile lib good fset node)] := by
      by_cases hne : analyzeFile lib good fset node = []
      · rcases hfiles with rfl | rfl <;>
          simp [parseStep, hbad, hgood, hne]
      · have hpos : 0 < (analyzeFile lib good fset node).length := List.length_pos.mpr hne
        rcases hfiles with rfl | rfl <;>
          simp [parseStep, hbad, hgood, hne, hpos, ExportMap.set]
    rw [hmain, hwarn, hmap]
    by_cases hne : analyzeFile lib good fset node = []
    · simp only [hne, if_true]
      rw [List.perm_nil.mp (hperm [])]
      rfl
    · simp only [hne, if_false]
      rw [List.perm_singleton.mp (hperm [_])]
      simp

/-- C11 (witness): in the directory with `bar.go` and the invalid
`broken.go`, the output is the warning for `broken.go` and the block of
`bar.go`. -/
theorem C11_parse_failure_skipped_witness :
    main exampleLib mixedEnv
      = [Out.parseError "root/broken.go" "1:1: expected declaration",
         Out.header "root/bar.go", Out.record 1 "Bar" "function" 3] :=
  ((C11_parse_failure_skipped exampleLib mixedEnv (fun m => List.Perm.refl m)
    ["root/bar.go", "root/broken.go"] (by decide) "root/broken.go" "1:1: expected declaration"
    rfl).2.2.2.2.2.2.2 "root/bar.go" exampleFset barFile rfl (Or.inl rfl)).trans (by decide)

/-! ## The directory walk -/

/-- The function `strings.HasSuffix` holds exactly for the strings that end
with the suffix. -/
theorem HasSuffix_iff (s suffix : String) :
    HasSuffix s suffix = true ↔ ∃ t : String, s = t ++ suffix := by
  unfold HasSuffix
  rw [Bool.and_eq_true, decide_eq_true_eq, beq_iff_eq]
  constructor
  · rintro ⟨_, hdrop⟩
    refine ⟨⟨s.data.take (s.data.length - suffix.data.length)⟩, ?_⟩
    apply String.ext
    have h := (List.take_append_drop (s.data.length - suffix.data.length) s.data).symm
    rw [hdrop] at h
    rw [String.data_append]
    exact h
  · rintro ⟨t, rfl⟩
    simp [String.data_append]

/-- A walk in which Walk passes no error collects the paths of the entries
that are no directories and end in ".go", in the order of the visit. -/
theorem Walk_of_no_error (entries : List WalkEntry) (files : List String)
    (hok : ∀ e ∈ entries, e.err = none) :
    Walk entries files
      = (files ++ (entries.filter fun e => !e.IsDir && HasSuffix e.path ".go").map
          WalkEntry.path, none) := by
  induction entries generalizing files with
  | nil => simp [Walk]
  | cons e rest ih =>
    have he : e.err = none := hok e (List.mem_cons_self _ _)
    have hrest : ∀ x ∈ rest, x.err = none := fun x hx => hok x (List.mem_cons_of_mem _ hx)
    cases hc : (!e.IsDir && HasSuffix e.path ".go") with
    | true => simp [Walk, walkFn, he, hc, ih _ hrest, List.filter_cons]
    | false => simp [Walk, walkFn, he, hc, ih _ hrest, List.filter_cons]

/-- A walk stops at the first entry for which Walk passes an error, and
returns that error. -/
theorem Walk_of_error (pre : List WalkEntry) (e : WalkEntry) (post : List WalkEntry)
    (err : String) (files : List String) (hpre : ∀ x ∈ pre, x.err = none)
    (he : e.err = some err) :
    Walk (pre ++ e :: post) files
      = (files ++ (pre.filter fun e => !e.IsDir && HasSuffix e.path ".go").map
          WalkEntry.path, some err) := by
  induction pre generalizing files with
  | nil => simp [Walk, walkFn, he]
  | cons x rest ih =>
    have hx : x.err = none := hpre x (List.mem_cons_self _ _)
    have hrest : ∀ y ∈ rest, y.err = none := fun y hy => hpre y (List.mem_cons_of_mem _ hy)
    cases hc : (!x.IsDir && HasSuffix x.path ".go") with
    | true => simp [Walk, walkFn, hx, hc, ih _ hrest, List.filter_cons]
    | false => simp [Walk, walkFn, hx, hc, ih _ hrest, List.filter_cons]

/-- C12: if the walk returns an error, `main` makes exactly one call, the
"Error walking directory" message with that error, whatever the parser would
return and whatever files were collected: no warning, header or record line
is printed.  The walk function returns an error passed to it unchanged, so
the walk returns the error of the first entry that has one, even after files
were collected. -/
theorem C12_walk_error_aborts (lib : GoLib) (env : Env) (files : List String) (err : String)
    (hwalk : Walk env.entries [] = (files, some err)) :
    main lib env = [Out.walkError err] ∧
    stdout (main lib env) = "Error walking directory: " ++ err ++ "\n" ∧
    (∀ (ParseFile : String → Except String (FileSet × File)) (rangeOrder : ExportMap → ExportMap),
      main lib { entries := env.entries, ParseFile := ParseFile, rangeOrder := rangeOrder }
        = [Out.walkError err]) ∧
    (∀ o ∈ main lib env, (∀ file e, o ≠ Out.parseError file e) ∧ (∀ file, o ≠ Out.header file) ∧
      ∀ i name type line, o ≠ Out.record i name type line) ∧
    (∀ (collected : List String) (e : WalkEntry) (e_err : String), e.err = some e_err →
      walkFn collected e = (collected, some e_err)) ∧
    (∀ (pre post : List WalkEntry) (e : WalkEntry) (e_err : String),
      (∀ x ∈ pre, x.err = none) → e.err = some e_err →
      Walk (pre ++ e :: post) []
        = ((pre.filter fun x => !x.IsDir && HasSuffix x.path ".go").map WalkEntry.path,
            some e_err)) := by
  have hmain := main_eq_of_walk_error lib env files err hwalk
  refine ⟨hmain, ?_, ?_, ?_, ?_, ?_⟩
  · rw [hmain, stdout_cons]
    simp [stdout, Out.text, String.join]
  · intro ParseFile rangeOrder
    exact main_eq_of_walk_error lib _ files err hwalk
  · intro o ho
    rw [hmain, List.mem_singleton] at ho
    subst ho
    refine ⟨?_, ?_, ?_⟩ <;> intros <;> intro h <;> cases h
  · intro collected e e_err he
    simp [walkFn, he]
  · intro pre post e e_err hpre he
    simpa using Walk_of_error pre e post e_err [] hpre he

/-- C12 (witness): in the directory whose subdirectory cannot be read,
`bar.go` was collected before the error, and `main` prints the error only. -/
theorem C12_walk_error_aborts_witness :
    Walk walkErrorEnv.entries [] = (["root/bar.go"], some "open root/sub: permission denied") ∧
    main exampleLib walkErrorEnv = [Out.walkError "open root/sub: permission denied"] :=
  ⟨by decide,
   (C12_walk_error_aborts exampleLib walkErrorEnv ["root/bar.go"]
      "open root/sub: permission denied" (by decide)).1⟩

/-- C13: when Walk passes no error, the collected list is exactly the
subsequence, in visit order, of the visited paths that are no directories and
end in ".go": every collected path ends in ".go" and is the path of an entry
that is no directory, and no such path is omitted. -/
theorem C13_collected_files (entries : List WalkEntry) (hok : ∀ e ∈ entries, e.err = none) :
    Walk entries []
      = ((entries.filter fun e => !e.IsDir && HasSuffix e.path ".go").map WalkEntry.path,
          none) ∧
    (∀ s : String, HasSuffix s ".go" = true ↔ ∃ t : String, s = t ++ ".go") ∧
    (Walk entries []).1.Sublist (entries.map WalkEntry.path) ∧
    (∀ p ∈ (Walk entries []).1,
      (∃ t : String, p = t ++ ".go") ∧ ∃ e ∈ entries, e.path = p ∧ e.IsDir = false) ∧
    (∀ e ∈ entries, e.IsDir = false → (∃ t : String, e.path = t ++ ".go") →
      e.path ∈ (Walk entries []).1) ∧
    (∀ e ∈ entries, e.IsDir = true →
      (entries.filter fun x => !x.IsDir && HasSuffix x.path ".go").count e = 0) := by
  have hwalk := Walk_of_no_error entries [] hok
  rw [List.nil_append] at hwalk
  refine ⟨hwalk, fun s => HasSuffix_iff s ".go", ?_, ?_, ?_, ?_⟩
  · rw [hwalk]
    exact (List.filter_sublist _).map _
  · intro p hp
    rw [hwalk] at hp
    obtain ⟨e, he, rfl⟩ := List.mem_map.mp hp
    rw [List.mem_filter, Bool.and_eq_true] at he
    refine ⟨(HasSuffix_iff _ _).mp he.2.2, e, he.1, rfl, ?_⟩
    simpa using he.2.1
  · intro e he hdir hsuf
    rw [hwalk]
    refine List.mem_map.mpr ⟨e, List.mem_filter.mpr ⟨he, ?_⟩, rfl⟩
    rw [Bool.and_eq_true]
    exact ⟨by simp [hdir], (HasSuffix_iff _ _).mpr hsuf⟩
  · intro e _ hdir
    rw [List.count_eq_zero, List.mem_filter]
    rintro ⟨_, h⟩
    simp [hdir] at h

/-- C13 (witness): in the example directory the files `bar.go` and `foo.go`
are collected; the directory `x.go` and the file `notes.txt` are not. -/
theorem C13_collected_files_witness :
    Walk exampleEnv.entries [] = (["root/bar.go", "root/foo.go"], none) :=
  (C13_collected_files exampleEnv.entries (by decide)).1.trans (by decide)

/-! ## The records of a file, further properties -/

/-- C14: the names of the records of `analyzeFile` are the names of the
top-level names of the file (for a general declaration its specs in order: the
names of a value spec, the name of a type spec, nothing for an import spec;
for a function declaration its name), in source order, of which exactly the
exported ones are kept: one record per exported top-level name.  The names
depend on the top-level identifiers only, so nothing inside a type expression,
a field list or a function body produces a record. -/
theorem C14_names_in_source_order (lib : GoLib) (filename : String) (fset : FileSet)
    (node : File) :
    (analyzeFile lib filename fset node).map (fun r => r.Name)
      = (node.topNames.map fun t => t.ident.Name).filter (IsExported lib) ∧
    node.topNames = node.Decls.flatMap (fun decl =>
      match decl with
      | Decl.GenDecl d => d.Specs.flatMap (fun spec =>
          match spec with
          | Spec.ValueSpec s => s.Names.map (TopName.value d s)
          | Spec.TypeSpec s => [TopName.type d s]
          | Spec.ImportSpec _ => [])
      | Decl.FuncDecl d => [TopName.func d]
      | Decl.BadDecl _ => []) ∧
    (analyzeFile lib filename fset node).length
      = node.topNames.countP (fun t => IsExported lib t.ident.Name) ∧
    (∀ (filename2 : String) (fset2 : FileSet) (node2 : File),
      (node2.topNames.map fun t => t.ident.Name) = (node.topNames.map fun t => t.ident.Name) →
      (analyzeFile lib filename2 fset2 node2).map (fun r => r.Name)
        = (analyzeFile lib filename fset node).map (fun r => r.Name)) := by
  have hnames : ∀ (fn : String) (fs : FileSet) (nd : File),
      (analyzeFile lib fn fs nd).map (fun r => r.Name)
        = (nd.topNames.map fun t => t.ident.Name).filter (IsExported lib) := by
    intro fn fs nd
    rw [analyzeFile_eq, exportedTopNames, List.map_map, List.filter_map]
    apply List.map_congr_left
    intro t _
    cases t <;> rfl
  refine ⟨hnames _ _ _, ?_, ?_, ?_⟩
  · rfl
  · rw [analyzeFile_eq, List.length_map, exportedTopNames, List.countP_eq_length_filter]
  · intro filename2 fset2 node2 h
    rw [hnames, hnames, h]

/-- C15: every record of `analyzeFile` has the filename argument as `File`,
the identifier's name as `Name`, and as `Line` the line of the position of the
name identifier itself, which is at least 1 whenever that position is valid in
the file set.  In the const group the keyword is on line 1 and the comment on
line 2, and the records of `A` and `B` have lines 3 and 4. -/
theorem C15_record_fields (lib : GoLib) (filename : String) (fset : FileSet) (node : File) :
    List.Forall₂
      (fun t r => r.File = filename ∧ r.Name = t.ident.Name ∧
        r.Line = fset.Line t.ident.NamePos ∧
        (PositionIsValid fset t.ident.NamePos = true → 1 ≤ r.Line))
      (exportedTopNames lib node) (analyzeFile lib filename fset node) ∧
    (constGroupFset.Line 1 = 1 ∧ constGroupFset.Line 10 = 2 ∧
      (analyzeFile exampleLib "c.go" constGroupFset constGroupFile).map
        (fun r => (r.Name, r.Line)) = [("A", 3), ("B", 4)]) := by
  constructor
  · apply forall₂_analyzeFile
    intro t _
    cases t <;>
    · refine ⟨rfl, rfl, rfl, ?_⟩
      intro h
      simpa [PositionIsValid, TopName.record, TopName.ident, Nat.lt_iff_add_one_le] using h
  · decide

/-- C17: the group-level check is true as soon as the comment map holds a
comment group for some node of the subtree of the declaration, and its value
does not change when the text of every comment is erased.  An exported
function without `Doc` but with a comment above a statement of its body, and
an exported function whose only comment has empty text, both get
`HasComment = true` and no report line. -/
theorem C17_subtree_comment_any_text :
    (∀ (cmap : CommentMap) (nodes : List NodeId),
      (∃ n ∈ nodes, cmap n ≠ []) → hasComment cmap nodes = true) ∧
    (∀ (cmap : CommentMap) (nodes : List NodeId),
      hasComment (fun n => (cmap n).map eraseText) nodes = hasComment cmap nodes) ∧
    (innerCommentFile.topNames.map TopName.Doc = [none] ∧
      innerCommentLib.NewCommentMap exampleFset innerCommentFile innerCommentFile.Comments 1 = [] ∧
      analyzeFile innerCommentLib "baz.go" exampleFset innerCommentFile
        = [{ File := "baz.go", Line := 3, Name := "Baz", Type_ := "function",
             HasComment := true }] ∧
      printExports (analyzeFile innerCommentLib "baz.go" exampleFset innerCommentFile) 0 []
        = []) ∧
    (emptyCommentFile.Comments.map CommentGroup.Text = [""] ∧
      analyzeFile exampleLib "qux.go" exampleFset emptyCommentFile
        = [{ File := "qux.go", Line := 3, Name := "Qux", Type_ := "function",
             HasComment := true }] ∧
      printExports (analyzeFile exampleLib "qux.go" exampleFset emptyCommentFile) 0 []
        = []) := by
  refine ⟨fun cmap nodes h => (hasComment_iff cmap nodes).mpr h, ?_, by decide, by decide⟩
  intro cmap nodes
  rw [Bool.eq_iff_iff, hasComment_iff, hasComment_iff]
  simp

/-! ## The ordinals of the report -/

/-- The ordinals of a sequence that starts with a documented record. -/
theorem ordinals_cons_true (exp : ExportInfo) (rest : List ExportInfo) (i : Nat)
    (h : exp.HasComment = true) : ordinals (exp :: rest) i = ordinals rest (i + 1) := by
  simp [ordinals, printExports, h]

/-- The ordinals of a sequence that starts with a record without comment. -/
theorem ordinals_cons_false (exp : ExportInfo) (rest : List ExportInfo) (i : Nat)
    (h : exp.HasComment = false) :
    ordinals (exp :: rest) i = (i + 1) :: ordinals rest (i + 1) := by
  simp only [ordinals, printExports, h, Bool.not_false, if_true, List.nil_append]
  rw [printExports_eq, List.map_append, printExports_eq rest (i + 1) [], List.nil_append]
  rfl

/-- The ordinals are the indices, plus one, of the records without comment. -/
theorem ordinals_eq (exports : List ExportInfo) (i : Nat) :
    ordinals exports i
      = ((exports.enumFrom i).filter fun p => !p.2.HasComment).map fun p => p.1 + 1 := by
  rw [ordinals, printExports_eq, List.nil_append, List.map_map]
  rfl

/-- Every ordinal is greater than the index the count starts from. -/
theorem ordinals_gt (exports : List ExportInfo) (i o : Nat) (ho : o ∈ ordinals exports i) :
    i < o := by
  induction exports generalizing i with
  | nil => simp [ordinals, printExports] at ho
  | cons exp rest ih =>
    cases h : exp.HasComment with
    | true =>
      rw [ordinals_cons_true exp rest i h] at ho
      exact Nat.lt_of_succ_lt (ih _ ho)
    | false =>
      rw [ordinals_cons_false exp rest i h, List.mem_cons] at ho
      rcases ho with rfl | ho
      · exact Nat.lt_succ_self i
      · exact Nat.lt_of_succ_lt (ih _ ho)

/-- The ordinals are strictly increasing. -/
theorem ordinals_pairwise (exports : List ExportInfo) (i : Nat) :
    (ordinals exports i).Pairwise (fun a b => a < b) := by
  induction exports generalizing i with
  | nil => simp [ordinals, printExports]
  | cons exp rest ih =>
    cases h : exp.HasComment with
    | true =>
      rw [ordinals_cons_true exp rest i h]
      exact ih _
    | false =>
      rw [ordinals_cons_false exp rest i h, List.pairwise_cons]
      exact ⟨fun o ho => ordinals_gt rest (i + 1) o ho, ih _⟩

/-- The ordinal at place `k` of the printed lines belongs to the record at an
index `x` that has no comment, and `x` is `k` plus the number of documented
records before it. -/
theorem ordinals_spec (exports : List ExportInfo) (i k o : Nat)
    (ho : (ordinals exports i)[k]? = some o) :
    ∃ x r, exports[x]? = some r ∧ r.HasComment = false ∧ o = i + x + 1 ∧
      x = k + (exports.take x).countP (fun r => r.HasComment) := by
  induction exports generalizing i k with
  | nil => simp [ordinals, printExports] at ho
  | cons exp rest ih =>
    cases h : exp.HasComment with
    | true =>
      rw [ordinals_cons_true exp rest i h] at ho
      obtain ⟨x, r, hx, hr, hox, hcount⟩ := ih (i + 1) k ho
      refine ⟨x + 1, r, by simpa using hx, hr, by omega, ?_⟩
      have hc : (List.take (x + 1) (exp :: rest)).countP (fun r => r.HasComment)
          = (List.take x rest).countP (fun r => r.HasComment) + 1 := by
        simp [List.countP_cons, h]
      omega
    | false =>
      rw [ordinals_cons_false exp rest i h] at ho
      cases k with
      | zero =>
        simp only [List.getElem?_cons_zero, Option.some.injEq] at ho
        exact ⟨0, exp, by simp, h, by omega, by simp⟩
      | succ k =>
        rw [List.getElem?_cons_succ] at ho
        obtain ⟨x, r, hx, hr, hox, hcount⟩ := ih (i + 1) k ho
        refine ⟨x + 1, r, by simpa using hx, hr, by omega, ?_⟩
        have hc : (List.take (x + 1) (exp :: rest)).countP (fun r => r.HasComment)
            = (List.take x rest).countP (fun r => r.HasComment) := by
          simp [List.countP_cons, h]
        omega

/-- The number of documented records before index `x` is positive exactly
when some record before `x` is documented. -/
theorem countP_take_pos_iff (exports : List ExportInfo) (x : Nat) :
    0 < (exports.take x).countP (fun r => r.HasComment) ↔
      ∃ j r, j < x ∧ exports[j]? = some r ∧ r.HasComment = true := by
  rw [List.countP_pos_iff]
  constructor
  · rintro ⟨r, hr, hdoc⟩
    obtain ⟨j, hj⟩ := List.mem_iff_getElem?.mp hr
    rw [List.getElem?_take] at hj
    by_cases hjx : j < x
    · rw [if_pos hjx] at hj
      exact ⟨j, r, hjx, hj, hdoc⟩
    · rw [if_neg hjx] at hj
      cases hj
  · rintro ⟨j, r, hjx, hj, hdoc⟩
    refine ⟨r, List.mem_iff_getElem?.mpr ⟨j, ?_⟩, hdoc⟩
    rw [List.getElem?_take, if_pos hjx]
    exact hj

/-- C16: the ordinals printed for a record sequence are the indices, plus one,
of the records without comment in the full sequence.  They are strictly
increasing; the ordinal at place `k` (counted from 0) of the printed lines is
at least `k + 1`, and greater than `k + 1` exactly when a documented record
precedes its record; and the ordinals are 1, 2, ..., n only if no documented
record precedes a record without comment. -/
theorem C16_ordinals_are_indices (exports : List ExportInfo) :
    ordinals exports 0
      = (exports.enum.filter fun p => !p.2.HasComment).map (fun p => p.1 + 1) ∧
    (∀ i r, exports[i]? = some r → r.HasComment = false →
      Out.record (i + 1) r.Name r.Type_ r.Line ∈ printExports exports 0 []) ∧
    (ordinals exports 0).Pairwise (fun a b => a < b) ∧
    (∀ k o, (ordinals exports 0)[k]? = some o → k + 1 ≤ o) ∧
    (∀ k o, (ordinals exports 0)[k]? = some o →
      (k + 1 < o ↔ ∃ j r, j + 1 < o ∧ exports[j]? = some r ∧ r.HasComment = true)) ∧
    (ordinals exports 0 = List.range' 1 (ordinals exports 0).length →
      ∀ (j j2 : Nat) (r r2 : ExportInfo), j < j2 → exports[j]? = some r →
        exports[j2]? = some r2 → r.HasComment = true → r2.HasComment = false → False) := by
  have hmem : ∀ i r, exports[i]? = some r → r.HasComment = false →
      Out.record (i + 1) r.Name r.Type_ r.Line ∈ printExports exports 0 [] := by
    intro i r hi hr
    rw [printExports_eq, List.nil_append, List.mem_map]
    exact ⟨(i, r), List.mem_filter.mpr ⟨List.mk_mem_enum_iff_getElem?.mpr hi, by simp [hr]⟩, rfl⟩
  refine ⟨?_, hmem, ordinals_pairwise exports 0, ?_, ?_, ?_⟩
  · rw [ordinals_eq, List.enum_eq_enumFrom]
  · intro k o ho
    obtain ⟨x, r, _, _, hox, hcount⟩ := ordinals_spec exports 0 k o ho
    omega
  · intro k o ho
    obtain ⟨x, r, _, _, hox, hcount⟩ := ordinals_spec exports 0 k o ho
    have hpos := countP_take_pos_iff exports x
    constructor
    · intro hlt
      obtain ⟨j, r2, hjx, hj, hdoc⟩ := hpos.mp (by omega)
      exact ⟨j, r2, by omega, hj, hdoc⟩
    · rintro ⟨j, r2, hjo, hj, hdoc⟩
      have := hpos.mpr ⟨j, r2, by omega, hj, hdoc⟩
      omega
  · intro hrange j j2 r r2 hlt hj hj2 hdoc hundoc
    have hin : j2 + 1 ∈ ordinals exports 0 := by
      unfold ordinals
      exact List.mem_map.mpr ⟨_, hmem j2 r2 hj2 hundoc, rfl⟩
    obtain ⟨k, hk⟩ := List.mem_iff_getElem?.mp hin
    obtain ⟨hklt, _⟩ := List.getElem?_eq_some.mp hk
    have hk2 := hk
    rw [hrange, List.getElem?_range' 1 1 hklt, Option.some.injEq] at hk2
    obtain ⟨x, r3, _, _, hox, hcount⟩ := ordinals_spec exports 0 k (j2 + 1) hk
    have hkj : k = j2 := by omega
    have hzero : ¬ 0 < (exports.take x).countP (fun r => r.HasComment) := by omega
    exact hzero ((countP_take_pos_iff exports x).mpr ⟨j, r, by omega, hj, hdoc⟩)

end AnalyzeExports
